import Mathlib

/-!
AVL tree (`AVLTree.h`): shallow embedding and verification.

The C++ class template `AVLTree<ptr_type, condition>` is embedded as follows.

* `ptr_type*` record handles are the elements of a type `α` with decidable
  equality (pointer equality of handles is equality in `α`).
* The functor `condition` is a function `cond : α → α → Comparison`.
* An `AVLNode<ptr_type>*` is a value of the inductive type `AVLNode α`;
  `nil` is `nullptr`, and a pointer to a node is the subtree rooted at that node.
* A function that may dereference `nullptr` returns `Option`; `none` means that
  the C++ code has no defined result on that input.
* `int` is the 32-bit signed integer, embedded in `Int`. The midpoint sum `start + end`
  of `build_tree_from_array` is computed by `int_add`, which has no result when the sum
  leaves the `int` range (signed overflow): this happens for every array of more than
  `2^30` records. The other `int` values are not range-checked: a height is below the
  node count, `mid - 1` and `mid + 1` are within one of a midpoint, and `num_of_nodes`
  is the number of nodes alive, which stays in range while at most `2^31 - 1` nodes are
  alive at once.
* Reference parameters (`AVLNode*& r`, `bool*& result`, the member
  `num_of_nodes`) are passed in and returned explicitly.
-/

namespace AVL

/-- Result of the three-way comparison (`enum class Comparison`). -/
inductive Comparison where
  | GREATER_THAN
  | EQUAL
  | LESS_THAN
  deriving DecidableEq, Repr

open Comparison

/-- A pointer to an `AVLNode<ptr_type>`: `nil` is `nullptr`, `node data height left right`
is a pointer to a node with these four fields. -/
inductive AVLNode (α : Type) where
  | nil : AVLNode α
  | node (data : α) (height : Int) (left : AVLNode α) (right : AVLNode α) : AVLNode α
  deriving DecidableEq, Repr

open AVLNode

/-- The class `AVLTree`: its two data members. -/
structure AVLTree (α : Type) where
  root : AVLNode α
  num_of_nodes : Int
  deriving DecidableEq, Repr

/-- Constructor `AVLTree()`: `root(nullptr), num_of_nodes(0)`. -/
def AVLTree.empty {α : Type} : AVLTree α := ⟨nil, 0⟩

section Code

variable {α : Type}

/-! ## Balancing functions -/

/-- `update_height(r)`: the four `if`s of the source test mutually exclusive conditions
on which children are `nullptr`; `r == nullptr` is a null dereference. -/
def update_height : AVLNode α → Option (AVLNode α)
  | nil => none
  | node d _ nil (node rd rh rl rr) => some (node d (1 + rh) nil (node rd rh rl rr))
  | node d _ (node ld lh ll lr) nil => some (node d (1 + lh) (node ld lh ll lr) nil)
  | node d _ (node ld lh ll lr) (node rd rh rl rr) =>
      if lh > rh then some (node d (lh + 1) (node ld lh ll lr) (node rd rh rl rr))
      else some (node d (rh + 1) (node ld lh ll lr) (node rd rh rl rr))
  | node d _ nil nil => some (node d 0 nil nil)

/-- `get_bf(r)`: balance factor computed from the children's cached heights. -/
def get_bf : AVLNode α → Option Int
  | nil => none
  | node _ _ nil (node _ rh _ _) => some (0 - 1 - rh)
  | node _ _ (node _ lh _ _) nil => some (lh + 1)
  | node _ _ (node _ lh _ _) (node _ rh _ _) => some (lh - rh)
  | node _ _ nil nil => some 0

/-- `make_LL_rotation(r)`: `A = r->left; r->left = r->left->right; A->right = r;`
then `update_height(r); update_height(A); return A`. -/
def make_LL_rotation : AVLNode α → Option (AVLNode α)
  | node d h (node ad ah al ar) r => do
      let r1 ← update_height (node d h ar r)
      update_height (node ad ah al r1)
  | _ => none

/-- `make_RR_rotation(r)`: mirror image of `make_LL_rotation`. -/
def make_RR_rotation : AVLNode α → Option (AVLNode α)
  | node d h l (node ad ah al ar) => do
      let r1 ← update_height (node d h l al)
      update_height (node ad ah r1 ar)
  | _ => none

/-- `make_RL_rotation(r)`: `r->right = make_LL_rotation(r->right); update_height(r);
return make_RR_rotation(r)`. -/
def make_RL_rotation : AVLNode α → Option (AVLNode α)
  | nil => none
  | node d h l r => do
      let r1 ← make_LL_rotation r
      let r2 ← update_height (node d h l r1)
      make_RR_rotation r2

/-- `make_LR_rotation(r)`: `r->left = make_RR_rotation(r->left); update_height(r);
return make_LL_rotation(r)`. -/
def make_LR_rotation : AVLNode α → Option (AVLNode α)
  | nil => none
  | node d h l r => do
      let l1 ← make_RR_rotation l
      let r2 ← update_height (node d h l1 r)
      make_LL_rotation r2

/-- `UNBALANCED_POSITIVE_BF`. -/
def UNBALANCED_POSITIVE_BF : Int := 2

/-- `UNBALANCED_NEGATIVE_BF`. -/
def UNBALANCED_NEGATIVE_BF : Int := -2

/-- `balance_tree(r)`: selects and applies the rotation. -/
def balance_tree : AVLNode α → Option (AVLNode α)
  | nil => none
  | node d h l r => do
      let bf ← get_bf (node d h l r)
      if bf = UNBALANCED_POSITIVE_BF then do
        let bl ← get_bf l
        if bl ≥ 0 then make_LL_rotation (node d h l r)
        else make_LR_rotation (node d h l r)
      else if bf = UNBALANCED_NEGATIVE_BF then do
        let br ← get_bf r
        if br ≤ 0 then make_RR_rotation (node d h l r)
        else make_RL_rotation (node d h l r)
      else some (node d h l r)

/-! ## Insert -/

/-- `insert_node(r, data, r_new_junction)`. The state that the C++ function updates
through references and members is passed explicitly: the result is the new value of
the slot `r` (which is also the returned pointer), of `r_new_junction` and of
`num_of_nodes`. The pointer stored in `r_new_junction` is represented by the node as
it is created (height 0, no children); rotations performed while unwinding may relink
that node but never assign its `data` field. -/
def insert_node (cond : α → α → Comparison) :
    AVLNode α → α → AVLNode α → Int → Option (AVLNode α × AVLNode α × Int)
  | nil, data, _, num => some (node data 0 nil nil, node data 0 nil nil, num + 1)
  | node d h l r, data, junction, num =>
      match cond data d with
      | LESS_THAN => do
          let (l1, j1, n1) ← insert_node cond l data junction num
          let r1 ← update_height (node d h l1 r)
          let r2 ← balance_tree r1
          some (r2, j1, n1)
      | GREATER_THAN => do
          let (x1, j1, n1) ← insert_node cond r data junction num
          let r1 ← update_height (node d h l x1)
          let r2 ← balance_tree r1
          some (r2, j1, n1)
      | EQUAL => some (node d h l r, nil, num)

/-- `insert(data)`: returns the new tree state and the returned pointer
(`nil` when the record was already present). -/
def insert (cond : α → α → Comparison) (t : AVLTree α) (data : α) :
    Option (AVLTree α × AVLNode α) := do
  let (r1, j1, n1) ← insert_node cond t.root data nil t.num_of_nodes
  some (⟨r1, n1⟩, j1)

/-! ## Search and neighbours -/

/-- `search_node(r, data, requested)`: the returned pointer (the out-parameter
`requested` is written but never read). -/
def search_node (cond : α → α → Comparison) : AVLNode α → α → AVLNode α
  | nil, _ => nil
  | node d h l r, data =>
      match cond data d with
      | LESS_THAN => search_node cond l data
      | GREATER_THAN => search_node cond r data
      | EQUAL => node d h l r

/-- `search(data)`. -/
def search (cond : α → α → Comparison) (t : AVLTree α) (data : α) : AVLNode α :=
  search_node cond t.root data

/-- `get_max_node_by_root(given_root)`: follows `right` pointers. -/
def get_max_node_by_root : AVLNode α → AVLNode α
  | nil => nil
  | node d h l nil => node d h l nil
  | node _ _ _ (node rd rh rl rr) => get_max_node_by_root (node rd rh rl rr)

/-- `get_min_node_by_root(given_root)`: follows `left` pointers. -/
def get_min_node_by_root : AVLNode α → AVLNode α
  | nil => nil
  | node d h nil r => node d h nil r
  | node _ _ (node ld lh ll lr) _ => get_min_node_by_root (node ld lh ll lr)

/-- `check_if_father(r, data)`: the right child is tested first. -/
def check_if_father (cond : α → α → Comparison) : AVLNode α → α → Option Bool
  | nil, _ => none
  | node _ _ l r, data =>
      let viaRight : Bool :=
        match r with
        | nil => false
        | node rd _ _ _ => decide (cond data rd = EQUAL)
      let viaLeft : Bool :=
        match l with
        | nil => false
        | node ld _ _ _ => decide (cond data ld = EQUAL)
      some (viaRight || viaLeft)

/-- `get_father(r, data)`; `root` is the member `root`, whose `data` field is read
(pointer comparison `data == root->data`) whenever `r` is not `nullptr`. -/
def get_father [DecidableEq α] (cond : α → α → Comparison) (root : AVLNode α) :
    AVLNode α → α → Option (AVLNode α)
  | nil, _ => some nil
  | node d h l r, data =>
      match root with
      | nil => none
      | node rootData _ _ _ =>
          if data = rootData then some nil
          else do
            let isFather ← check_if_father cond (node d h l r) data
            if isFather then some (node d h l r)
            else
              match cond data d with
              | LESS_THAN => get_father cond root l data
              | GREATER_THAN => get_father cond root r data
              | EQUAL => some nil

/-- The `while (father != nullptr)` loop of `get_closest_left`. `fuel` bounds the number
of times the loop condition is evaluated; `none` is returned when it is exhausted.
When the comparison is `EQUAL` the body changes nothing and the loop repeats. -/
def closest_left_loop [DecidableEq α] (cond : α → α → Comparison) (root : AVLNode α)
    (data : α) : Nat → AVLNode α → Option (AVLNode α)
  | 0, _ => none
  | _ + 1, nil => some nil
  | fuel + 1, node fd fh fl fr =>
      match cond data fd with
      | GREATER_THAN => some (node fd fh fl fr)
      | LESS_THAN => do
          let father ← get_father cond root root fd
          closest_left_loop cond root data fuel father
      | EQUAL => closest_left_loop cond root data fuel (node fd fh fl fr)

/-- `get_closest_left(data)`, with `fuel` for its loop. -/
def get_closest_left [DecidableEq α] (cond : α → α → Comparison) (fuel : Nat)
    (t : AVLTree α) (data : α) : Option (AVLNode α) :=
  match search cond t data with
  | nil => some nil
  | node qd _ nil _ => do
      let father ← get_father cond t.root t.root qd
      closest_left_loop cond t.root data fuel father
  | node _ _ (node ld lh ll lr) _ => some (get_max_node_by_root (node ld lh ll lr))

/-! ## Traversal -/

/-- `inorder_travel(r, elements_by_order, index)`: the output buffer is the list of the
entries written so far, `*index` being its length. -/
def inorder_travel : AVLNode α → List α → List α
  | nil, out => out
  | node d _ l r, out => inorder_travel r (inorder_travel l out ++ [d])

/-- `inorder()`: `none` is the `nullptr` returned for an empty tree; otherwise the
array of `num_of_nodes` slots filled from index 0 by `inorder_travel`. -/
def inorder (t : AVLTree α) : Option (List α) :=
  match t.root with
  | nil => none
  | node d h l r => some (inorder_travel (node d h l r) [])

/-! ## Remove -/

/-- `find_successor(b)`: the rightmost node of `b->left` (`b` and `b->left` are
dereferenced). -/
def find_successor : AVLNode α → Option (AVLNode α)
  | node _ _ (node ld lh ll lr) _ => some (get_max_node_by_root (node ld lh ll lr))
  | _ => none

/-- `remove_node(r, data, result, erase)`. Passed explicitly: `*result`, and the list
`destroyed` of the records on which `delete` has been called. The result is the new
value of the slot `r` (also the returned pointer), of `*result` and of `destroyed`.
On `nullptr` the source assigns `*result + false` to `*result`. In the two-children case
the inner call receives the slot `r->left` by reference, so the slot is updated although
the returned pointer is discarded, and `*result` is set to `true` afterwards. -/
def remove_node (cond : α → α → Comparison) :
    AVLNode α → α → Bool → Bool → List α → Option (AVLNode α × Bool × List α)
  | nil, _, result, _, destroyed => some (nil, result || false, destroyed)
  | node d h l r, data, result, erase, destroyed =>
      match cond data d with
      | EQUAL =>
          let destroyed1 := if erase then destroyed ++ [d] else destroyed
          match l, r with
          | nil, nil => some (nil, true, destroyed1)
          | node ld lh ll lr, nil => some (node ld lh ll lr, true, destroyed1)
          | nil, node rd rh rl rr => some (node rd rh rl rr, true, destroyed1)
          | node ld lh ll lr, node rd rh rl rr =>
              match find_successor (node d h (node ld lh ll lr) (node rd rh rl rr)) with
              | none => none
              | some nil => none
              | some (node sd _ _ _) => do
                  let (l1, _, destroyed2) ←
                    remove_node cond (node ld lh ll lr) sd result false destroyed1
                  let r1 ← update_height (node sd h l1 (node rd rh rl rr))
                  let r2 ← balance_tree r1
                  some (r2, true, destroyed2)
      | LESS_THAN => do
          let (l1, res1, destroyed1) ← remove_node cond l data result erase destroyed
          let r1 ← update_height (node d h l1 r)
          let r2 ← balance_tree r1
          some (r2, res1, destroyed1)
      | GREATER_THAN => do
          let (x1, res1, destroyed1) ← remove_node cond r data result erase destroyed
          let r1 ← update_height (node d h l x1)
          let r2 ← balance_tree r1
          some (r2, res1, destroyed1)

/-- `remove(data)`: new tree state and returned `bool`. -/
def remove (cond : α → α → Comparison) (t : AVLTree α) (data : α) :
    Option (AVLTree α × Bool) := do
  let (r1, value, _) ← remove_node cond t.root data false false []
  some (⟨r1, if value = true then t.num_of_nodes - 1 else t.num_of_nodes⟩, value)

/-! ## Successor query -/

/-- The `while (father != nullptr)` loop of `get_closest_right`. `fuel` bounds the number
of times the loop condition is evaluated; `none` is returned when it is exhausted.
When the comparison is `EQUAL` the body changes nothing and the loop repeats. -/
def closest_right_loop [DecidableEq α] (cond : α → α → Comparison) (root : AVLNode α)
    (data : α) : Nat → AVLNode α → Option (AVLNode α)
  | 0, _ => none
  | _ + 1, nil => some nil
  | fuel + 1, node fd fh fl fr =>
      match cond data fd with
      | LESS_THAN => some (node fd fh fl fr)
      | GREATER_THAN => do
          let father ← get_father cond root root fd
          closest_right_loop cond root data fuel father
      | EQUAL => closest_right_loop cond root data fuel (node fd fh fl fr)

/-- `get_closest_right(data)`, with `fuel` for its loop. -/
def get_closest_right [DecidableEq α] (cond : α → α → Comparison) (fuel : Nat)
    (t : AVLTree α) (data : α) : Option (AVLNode α) :=
  match search cond t data with
  | nil => some nil
  | node qd _ _ nil => do
      let father ← get_father cond t.root t.root qd
      closest_right_loop cond t.root data fuel father
  | node _ _ _ (node rd rh rl rr) => some (get_min_node_by_root (node rd rh rl rr))

/-! ## Build from array -/

/-- `array[i]` for an `int` index: reading outside the array has no defined result. -/
def arrayAt (array : List α) (i : Int) : Option α :=
  if i < 0 then none else array.get? i.toNat

/-- Largest value of an `int`. -/
def INT_MAX : Int := 2147483647

/-- Smallest value of an `int`. -/
def INT_MIN : Int := -2147483648

/-- The sum `a + b` of two `int` values: a sum outside the range of `int` is a signed
overflow and has no defined result. -/
def int_add (a b : Int) : Option Int :=
  if INT_MIN ≤ a + b ∧ a + b ≤ INT_MAX then some (a + b) else none

/-- `build_tree_from_array(array, start, end)`. The first argument bounds the depth of the
recursion (`none` when it is exhausted). The sum `start + end` is an `int` addition and
`mid` is its truncating `int` division by 2, so `mid - 1` and `mid + 1` are in range. A
node is created with `array[mid]`, its children are built, left one first, then
`update_height` is called on it. -/
def build_tree_from_array (array : List α) : Nat → Int → Int → Option (AVLNode α)
  | 0, _, _ => none
  | depth + 1, start, stop =>
      if start > stop then some nil
      else do
        let sum ← int_add start stop
        let mid := Int.tdiv sum 2
        let d ← arrayAt array mid
        let l ← build_tree_from_array array depth start (mid - 1)
        let r ← build_tree_from_array array depth (mid + 1) stop
        update_height (node d 0 l r)

/-- `build_from_array(data_array, size)`: `data_array` is `none` for `nullptr`. The old
nodes are freed by `destructor(root)`, which touches no record. The recursion of
`build_tree_from_array` is given depth `size + 1`. -/
def build_from_array (t : AVLTree α) (data_array : Option (List α)) (size : Int) :
    Option (AVLTree α) :=
  match data_array with
  | none => some t
  | some array =>
      if size < 1 then some t
      else do
        let r ← build_tree_from_array array (size.toNat + 1) 0 (size - 1)
        some ⟨r, size⟩

/-! ## Tree details -/

/-- `EMPTY_TREE`. -/
def EMPTY_TREE : Int := -1

/-- `get_tree_height()`: `root->right` and `root->left` are read without a test of
`root`. -/
def get_tree_height (t : AVLTree α) : Option Int :=
  match t.root with
  | nil => none
  | node _ _ nil nil => some EMPTY_TREE
  | node _ h _ _ => some h

/-- `get_num_of_nodes()`. -/
def get_num_of_nodes (t : AVLTree α) : Int := t.num_of_nodes

/-- `remove_and_erase(data)`: new tree state, returned `bool`, and the records on which
`delete` has been called. -/
def remove_and_erase (cond : α → α → Comparison) (t : AVLTree α) (data : α) :
    Option (AVLTree α × Bool × List α) := do
  let (r1, value, destroyed) ← remove_node cond t.root data false true []
  some (⟨r1, if value = true then t.num_of_nodes - 1 else t.num_of_nodes⟩, value, destroyed)

/-! ## Erasing the records -/

/-- `erase_data_in_node(r)`: the two recursive calls, then `r->height = 0`, then
`delete r->data`. The list `destroyed` of the records on which `delete` has been called
is passed in and returned together with the subtree as it is left; the node keeps its
`data` pointer. -/
def erase_data_in_node : AVLNode α → List α → AVLNode α × List α
  | nil, destroyed => (nil, destroyed)
  | node d _ l r, destroyed =>
      let (l1, destroyed1) := erase_data_in_node l destroyed
      let (r1, destroyed2) := erase_data_in_node r destroyed1
      (node d 0 l1 r1, destroyed2 ++ [d])

/-- `erase_data()`: the tree state afterwards and the records destroyed. -/
def erase_data (t : AVLTree α) : AVLTree α × List α :=
  let (r1, destroyed) := erase_data_in_node t.root []
  (⟨r1, t.num_of_nodes⟩, destroyed)

end Code

section Spec

variable {α : Type}

/-- Height of a possibly absent subtree: `-1` if absent, else the cached field. -/
def height : AVLNode α → Int
  | nil => -1
  | node _ h _ _ => h

/-- Every node's cached height equals `1 + max(height(left), height(right))`. -/
def HeightsOk : AVLNode α → Prop
  | nil => True
  | node _ h l r => h = 1 + max (height l) (height r) ∧ HeightsOk l ∧ HeightsOk r

/-- Balance factor `height(left) − height(right)` of a node. -/
def balance_factor : AVLNode α → Int
  | nil => 0
  | node _ _ l r => height l - height r

/-- Every node's balance factor is `-1`, `0` or `1`. -/
def Balanced : AVLNode α → Prop
  | nil => True
  | node d h l r =>
      (balance_factor (node d h l r) = -1 ∨ balance_factor (node d h l r) = 0 ∨
        balance_factor (node d h l r) = 1) ∧ Balanced l ∧ Balanced r

/-- The in-order sequence of the records of a subtree (left, node, right). -/
def toList : AVLNode α → List α
  | nil => []
  | node d _ l r => toList l ++ d :: toList r

/-- Number of nodes reachable from a pointer. -/
def size : AVLNode α → Nat
  | nil => 0
  | node _ _ l r => size l + 1 + size r

/-- The in-order sequence obtained by adding `x` at the absent slot reached by the
comparator-guided descent from the root (unchanged if an `EQUAL` record is met). -/
def insList (cond : α → α → Comparison) (x : α) : AVLNode α → List α
  | nil => [x]
  | node d h l r =>
      match cond x d with
      | LESS_THAN => insList cond x l ++ d :: toList r
      | GREATER_THAN => toList l ++ d :: insList cond x r
      | EQUAL => toList (node d h l r)

/-- A sequence of records is strictly increasing under the comparator. -/
def StrictlyIncreasing (cond : α → α → Comparison) (xs : List α) : Prop :=
  xs.Pairwise (fun a b => cond a b = LESS_THAN)

/-- Binary-search order: the in-order sequence is strictly increasing. -/
def Ordered (cond : α → α → Comparison) (t : AVLNode α) : Prop :=
  StrictlyIncreasing cond (toList t)

/-- Well-formed tree: strictly increasing in-order sequence, correct cached heights,
balance factors in `{-1,0,1}`. -/
def WellFormed (cond : α → α → Comparison) (t : AVLNode α) : Prop :=
  Ordered cond t ∧ HeightsOk t ∧ Balanced t

/-- The comparator is a strict total order on records: `EQUAL` is reflexive and
compatible with the comparison, `GREATER_THAN` is the converse of `LESS_THAN`, and
`LESS_THAN` is transitive. (Distinct handles may compare `EQUAL`.) -/
structure StrictTotal (cond : α → α → Comparison) : Prop where
  refl : ∀ a, cond a a = EQUAL
  flip : ∀ a b, cond a b = LESS_THAN ↔ cond b a = GREATER_THAN
  trans : ∀ a b c, cond a b = LESS_THAN → cond b c = LESS_THAN → cond a c = LESS_THAN
  equal_left : ∀ a b c, cond a b = EQUAL → cond a c = cond b c

/-- The records held by the array that `inorder()` returns, in index order (no records
for the `nullptr` returned on an empty tree). -/
def snapshot (t : AVLTree α) : List α := (inorder t).getD []

/-- A public mutating call. -/
inductive Call (α : Type) where
  | insert (data : α)
  | remove (data : α)

/-- Perform one call, keeping the resulting tree. -/
def applyCall (cond : α → α → Comparison) (t : AVLTree α) : Call α → Option (AVLTree α)
  | Call.insert x => (insert cond t x).map Prod.fst
  | Call.remove k => (remove cond t k).map Prod.fst

/-- Perform a sequence of calls, first call first. -/
def applyCalls (cond : α → α → Comparison) : List (Call α) → AVLTree α → Option (AVLTree α)
  | [], t => some t
  | c :: cs, t => (applyCall cond t c).bind (applyCalls cond cs)

/-- Insert the records of a list one by one, first record first. -/
def insertAll (cond : α → α → Comparison) : List α → AVLTree α → Option (AVLTree α)
  | [], t => some t
  | x :: xs, t => (insert cond t x).bind (fun p => insertAll cond xs p.1)

/-- The usual three-way comparison of natural numbers, used for concrete instances. -/
def natCond (a b : Nat) : Comparison :=
  if a < b then LESS_THAN else if a = b then EQUAL else GREATER_THAN

/-- As a decision procedure: `HeightsOk` is checked node by node. -/
instance HeightsOk.decidable : (t : AVLNode α) → Decidable (HeightsOk t)
  | nil => isTrue trivial
  | node _ h l r =>
      have := HeightsOk.decidable l
      have := HeightsOk.decidable r
      inferInstanceAs (Decidable (h = 1 + max (height l) (height r) ∧ HeightsOk l ∧ HeightsOk r))

/-- As a decision procedure: `Balanced` is checked node by node. -/
instance Balanced.decidable : (t : AVLNode α) → Decidable (Balanced t)
  | nil => isTrue trivial
  | node d h l r =>
      have := Balanced.decidable l
      have := Balanced.decidable r
      inferInstanceAs (Decidable ((balance_factor (node d h l r) = -1 ∨
        balance_factor (node d h l r) = 0 ∨ balance_factor (node d h l r) = 1) ∧
        Balanced l ∧ Balanced r))

/-- As a decision procedure: pairwise comparison of the sequence. -/
instance StrictlyIncreasing.decidable (cond : α → α → Comparison) (xs : List α) :
    Decidable (StrictlyIncreasing cond xs) :=
  inferInstanceAs (Decidable (xs.Pairwise (fun a b => cond a b = LESS_THAN)))

/-- As a decision procedure: the in-order sequence is checked. -/
instance Ordered.decidable (cond : α → α → Comparison) (t : AVLNode α) :
    Decidable (Ordered cond t) :=
  inferInstanceAs (Decidable (StrictlyIncreasing cond (toList t)))

/-- As a decision procedure: the three parts are checked. -/
instance WellFormed.decidable (cond : α → α → Comparison) (t : AVLNode α) :
    Decidable (WellFormed cond t) :=
  inferInstanceAs (Decidable (Ordered cond t ∧ HeightsOk t ∧ Balanced t))

/-- A tree holding 1 and 3, left-heavy at the root. -/
def sampleSmall : AVLTree Nat := ⟨node 3 1 (node 1 0 nil nil) nil, 2⟩

/-- The tree obtained by inserting 5, 2, 8, 1, 3, 7, 9, 4 in this order. -/
def sampleEight : AVLTree Nat :=
  ⟨node 5 3 (node 2 2 (node 1 0 nil nil) (node 3 1 nil (node 4 0 nil nil)))
    (node 8 1 (node 7 0 nil nil) (node 9 0 nil nil)), 8⟩

/-- The nodes strictly above the node reached by the comparator-guided descent for `k`,
nearest first (the root last). -/
def ancestors (cond : α → α → Comparison) : AVLNode α → α → List (AVLNode α)
  | nil, _ => []
  | node d h l r, k =>
      match cond k d with
      | LESS_THAN => ancestors cond l k ++ [node d h l r]
      | GREATER_THAN => ancestors cond r k ++ [node d h l r]
      | EQUAL => []

/-- The first node of a list whose record is below `k` (`nil` if there is none). -/
def firstSmaller (cond : α → α → Comparison) (k : α) : List (AVLNode α) → AVLNode α
  | [] => nil
  | nil :: rest => firstSmaller cond k rest
  | node d h l r :: rest =>
      match cond k d with
      | GREATER_THAN => node d h l r
      | _ => firstSmaller cond k rest

/-- The `data` field behind a pointer, if the pointer is not null. -/
def data? : AVLNode α → Option α
  | nil => none
  | node d _ _ _ => some d

/-- The stored records that are `LESS_THAN` the key `k`, in their in-order sequence. -/
def recordsBelow (cond : α → α → Comparison) (k : α) (xs : List α) : List α :=
  xs.filter (fun y => decide (cond y k = LESS_THAN))

/-- The tree obtained by inserting 1, 3, 5, 7, 9 in this order. -/
def sampleFive : AVLTree Nat :=
  ⟨node 3 2 (node 1 0 nil nil) (node 7 1 (node 5 0 nil nil) (node 9 0 nil nil)), 5⟩

/-- A public call that changes the tree; `build_from_array` is called with a non-null
array and its length. -/
inductive Op (α : Type) where
  | insert (data : α)
  | remove (data : α)
  | remove_and_erase (data : α)
  | build_from_array (data_array : List α)

/-- Perform one call, keeping the resulting tree. -/
def applyOp (cond : α → α → Comparison) (t : AVLTree α) : Op α → Option (AVLTree α)
  | Op.insert x => (insert cond t x).map Prod.fst
  | Op.remove k => (remove cond t k).map Prod.fst
  | Op.remove_and_erase k => (remove_and_erase cond t k).map Prod.fst
  | Op.build_from_array arr => build_from_array t (some arr) arr.length

/-- Perform a sequence of calls, first call first. -/
def applyOps (cond : α → α → Comparison) : List (Op α) → AVLTree α → Option (AVLTree α)
  | [], t => some t
  | c :: cs, t => (applyOp cond t c).bind (applyOps cond cs)

/-- The array passed to a `build_from_array` call is sorted by the comparator and has no
duplicates (no condition on the other calls). -/
def SortedArray (cond : α → α → Comparison) : Op α → Prop
  | Op.build_from_array arr => StrictlyIncreasing cond arr
  | _ => True

/-- As a decision procedure: the array of a `build_from_array` call is checked. -/
instance SortedArray.decidable (cond : α → α → Comparison) :
    (op : Op α) → Decidable (SortedArray cond op)
  | Op.build_from_array arr => inferInstanceAs (Decidable (StrictlyIncreasing cond arr))
  | Op.insert _ => isTrue trivial
  | Op.remove _ => isTrue trivial
  | Op.remove_and_erase _ => isTrue trivial

/-- Every array passed to `build_from_array` in a sequence of calls is sorted by the
comparator and has no duplicates. -/
def SortedArrays (cond : α → α → Comparison) (ops : List (Op α)) : Prop :=
  ∀ op ∈ ops, SortedArray cond op

/-- As a decision procedure: every call of the sequence is checked. -/
instance SortedArrays.decidable (cond : α → α → Comparison) (ops : List (Op α)) :
    Decidable (SortedArrays cond ops) :=
  inferInstanceAs (Decidable (∀ op ∈ ops, SortedArray cond op))

/-- The array passed to a `build_from_array` call has at most `2^30` records, the sizes
for which the midpoint sum `start + end` stays an `int`. -/
def BoundedArray : Op α → Prop
  | Op.build_from_array arr => arr.length ≤ 2 ^ 30
  | _ => True

/-- As a decision procedure: the length of the array is compared with `2^30`. -/
instance BoundedArray.decidable : (op : Op α) → Decidable (BoundedArray op)
  | Op.build_from_array arr => inferInstanceAs (Decidable (arr.length ≤ 2 ^ 30))
  | Op.insert _ => isTrue trivial
  | Op.remove _ => isTrue trivial
  | Op.remove_and_erase _ => isTrue trivial

/-- Every array passed to `build_from_array` in a sequence of calls has at most `2^30`
records. -/
def BoundedArrays (ops : List (Op α)) : Prop :=
  ∀ op ∈ ops, BoundedArray op

/-- As a decision procedure: every call of the sequence is checked. -/
instance BoundedArrays.decidable (ops : List (Op α)) : Decidable (BoundedArrays ops) :=
  inferInstanceAs (Decidable (∀ op ∈ ops, BoundedArray op))

/-- The first node of a list whose record is above `k` (`nil` if there is none). -/
def firstLarger (cond : α → α → Comparison) (k : α) : List (AVLNode α) → AVLNode α
  | [] => nil
  | nil :: rest => firstLarger cond k rest
  | node d h l r :: rest =>
      match cond k d with
      | LESS_THAN => node d h l r
      | _ => firstLarger cond k rest

/-- The stored records that are `GREATER_THAN` the key `k`, in their in-order sequence. -/
def recordsAbove (cond : α → α → Comparison) (k : α) (xs : List α) : List α :=
  xs.filter (fun y => decide (cond y k = GREATER_THAN))

/-- The same tree (shape and record at every node) with every cached height set to 0. -/
def zeroHeights : AVLNode α → AVLNode α
  | nil => nil
  | node d _ l r => node d 0 (zeroHeights l) (zeroHeights r)

/-- The records of a subtree in post-order (left subtree, right subtree, node). -/
def postorder : AVLNode α → List α
  | nil => []
  | node d _ l r => postorder l ++ postorder r ++ [d]

/-- The balance factor that `balance_tree(r)` reads when it is called right after
`update_height(r)`: the fixup step `update_height(r); return balance_tree(r);`. -/
def fixup_bf (n : AVLNode α) : Option Int := (update_height n).bind get_bf

/-- The balance factors read by the fixup at every ancestor during
`insert_node(r, data, r_new_junction)`, in the order in which the fixups run (deepest
ancestor first). The entry of an ancestor is computed from the ancestor with the child
slot replaced by the result of the recursive call; it is `none` if that value is not
defined. -/
def insert_fixup_bfs (cond : α → α → Comparison) :
    AVLNode α → α → AVLNode α → Int → List (Option Int)
  | nil, _, _, _ => []
  | node d h l r, data, junction, num =>
      match cond data d with
      | LESS_THAN =>
          insert_fixup_bfs cond l data junction num ++
            [(insert_node cond l data junction num).bind fun p => fixup_bf (node d h p.1 r)]
      | GREATER_THAN =>
          insert_fixup_bfs cond r data junction num ++
            [(insert_node cond r data junction num).bind fun p => fixup_bf (node d h l p.1)]
      | EQUAL => []

/-- The balance factors read by the fixup at every ancestor during
`remove_node(r, data, result, erase)`, in the order in which the fixups run (deepest
ancestor first); the two-children case runs a fixup at the node whose record is replaced,
after the inner removal from its left subtree. -/
def remove_fixup_bfs (cond : α → α → Comparison) :
    AVLNode α → α → Bool → Bool → List α → List (Option Int)
  | nil, _, _, _, _ => []
  | node d h l r, data, result, erase, destroyed =>
      match cond data d with
      | EQUAL =>
          let destroyed1 := if erase then destroyed ++ [d] else destroyed
          match l, r with
          | node ld lh ll lr, node rd rh rl rr =>
              match find_successor (node d h (node ld lh ll lr) (node rd rh rl rr)) with
              | some (node sd _ _ _) =>
                  remove_fixup_bfs cond (node ld lh ll lr) sd result false destroyed1 ++
                    [(remove_node cond (node ld lh ll lr) sd result false destroyed1).bind
                      fun p => fixup_bf (node sd h p.1 (node rd rh rl rr))]
              | _ => []
          | _, _ => []
      | LESS_THAN =>
          remove_fixup_bfs cond l data result erase destroyed ++
            [(remove_node cond l data result erase destroyed).bind
              fun p => fixup_bf (node d h p.1 r)]
      | GREATER_THAN =>
          remove_fixup_bfs cond r data result erase destroyed ++
            [(remove_node cond r data result erase destroyed).bind
              fun p => fixup_bf (node d h l p.1)]

end Spec

/-! ## Lemmas about the balancing functions -/

section Lemmas

variable {α : Type}

@[simp] theorem height_nil : height (nil : AVLNode α) = -1 := rfl

@[simp] theorem height_node (d : α) (h : Int) (l r : AVLNode α) :
    height (node d h l r) = h := rfl

theorem height_ge_of_heightsOk : ∀ (t : AVLNode α), HeightsOk t → -1 ≤ height t
  | nil, _ => by simp
  | node d h l r, hok => by
      have hl := height_ge_of_heightsOk l hok.2.1
      have hr := height_ge_of_heightsOk r hok.2.2
      have := hok.1
      simp only [height_node]
      omega

theorem get_bf_node (d : α) (h : Int) (l r : AVLNode α) :
    get_bf (node d h l r) = some (height l - height r) := by
  cases l <;> cases r <;> simp [get_bf]

theorem update_height_node (d : α) (h : Int) (l r : AVLNode α)
    (hl : -1 ≤ height l) (hr : -1 ≤ height r) :
    update_height (node d h l r) = some (node d (1 + max (height l) (height r)) l r) := by
  cases l <;> cases r <;> simp [update_height] at *
  · omega
  · omega
  · split_ifs <;> simp <;> omega

theorem make_LL_rotation_node (d : α) (h : Int) (ad : α) (ah : Int) (al ar r : AVLNode α)
    (h1 : -1 ≤ height al) (h2 : -1 ≤ height ar) (h3 : -1 ≤ height r) :
    make_LL_rotation (node d h (node ad ah al ar) r) =
      some (node ad (1 + max (height al) (1 + max (height ar) (height r))) al
        (node d (1 + max (height ar) (height r)) ar r)) := by
  simp only [make_LL_rotation]
  rw [update_height_node _ _ _ _ h2 h3]
  simp only [Option.bind_eq_bind, Option.some_bind]
  rw [update_height_node _ _ _ _ h1 (by simp only [height_node]; omega)]
  simp only [height_node]

theorem make_RR_rotation_node (d : α) (h : Int) (ad : α) (ah : Int) (l al ar : AVLNode α)
    (h1 : -1 ≤ height l) (h2 : -1 ≤ height al) (h3 : -1 ≤ height ar) :
    make_RR_rotation (node d h l (node ad ah al ar)) =
      some (node ad (1 + max (1 + max (height l) (height al)) (height ar))
        (node d (1 + max (height l) (height al)) l al) ar) := by
  simp only [make_RR_rotation]
  rw [update_height_node _ _ _ _ h1 h2]
  simp only [Option.bind_eq_bind, Option.some_bind]
  rw [update_height_node _ _ _ _ (by simp only [height_node]; omega) h3]
  simp only [height_node]

/-- `balance_tree` on a node with correct height whose subtrees satisfy the AVL invariant
and whose balance factor is within `[-2, 2]`: it returns a subtree satisfying the
invariant, with the same in-order sequence, of the same height or one less, and the
node itself when its balance factor is within `[-1, 1]`. -/
theorem balance_tree_spec (d : α) (h : Int) (l r : AVLNode α)
    (hl : HeightsOk l) (bl : Balanced l) (hr : HeightsOk r) (br : Balanced r)
    (hh : h = 1 + max (height l) (height r))
    (hbf : -2 ≤ height l - height r ∧ height l - height r ≤ 2) :
    ∃ t, balance_tree (node d h l r) = some t ∧ HeightsOk t ∧ Balanced t ∧
      toList t = toList l ++ d :: toList r ∧ (height t = h ∨ height t = h - 1) ∧
      ((-1 ≤ height l - height r ∧ height l - height r ≤ 1) → t = node d h l r) := by
  have gl := height_ge_of_heightsOk l hl
  have gr := height_ge_of_heightsOk r hr
  simp only [balance_tree, get_bf_node, Option.bind_eq_bind, Option.some_bind,
    UNBALANCED_POSITIVE_BF, UNBALANCED_NEGATIVE_BF]
  by_cases h2 : height l - height r = 2
  · simp only [h2, if_true]
    cases l with
    | nil => simp at h2; omega
    | node ad ah al ar =>
      simp only [height_node] at h2 gl hh hbf
      simp only [HeightsOk] at hl
      simp only [Balanced, balance_factor] at bl
      obtain ⟨hah, hal, har⟩ := hl
      obtain ⟨bah, bal, bar⟩ := bl
      have gal := height_ge_of_heightsOk al hal
      have gar := height_ge_of_heightsOk ar har
      simp only [get_bf_node, Option.some_bind]
      by_cases h3 : height al - height ar ≥ 0
      · simp only [h3, if_true]
        rw [make_LL_rotation_node _ _ _ _ _ _ _ gal gar gr]
        refine ⟨_, rfl, ?_, ?_, ?_, ?_, ?_⟩
        · simp only [HeightsOk, height_node]
          exact ⟨trivial, hal, trivial, har, hr⟩
        · simp only [Balanced, balance_factor, height_node]
          refine ⟨by omega, bal, by omega, bar, br⟩
        · simp [toList]
        · simp only [height_node]; omega
        · intro hc; omega
      · simp only [h3, if_false]
        cases ar with
        | nil => simp at h3; omega
        | node bd bh bl2 br2 =>
          simp only [height_node] at h3 gar hah bah
          simp only [HeightsOk] at har
          simp only [Balanced, balance_factor] at bar
          obtain ⟨hbh, hbl, hbr⟩ := har
          obtain ⟨bbh, bbl, bbr⟩ := bar
          have gbl := height_ge_of_heightsOk bl2 hbl
          have gbr := height_ge_of_heightsOk br2 hbr
          simp only [make_LR_rotation, Option.bind_eq_bind]
          rw [make_RR_rotation_node _ _ _ _ _ _ _ gal gbl gbr]
          simp only [Option.some_bind]
          rw [update_height_node _ _ _ _ (by simp only [height_node]; omega) gr]
          simp only [Option.some_bind]
          rw [make_LL_rotation_node _ _ _ _ _ _ _ (by simp only [height_node]; omega) gbr gr]
          refine ⟨_, rfl, ?_, ?_, ?_, ?_, ?_⟩
          · simp only [HeightsOk, height_node]
            exact ⟨trivial, ⟨trivial, hal, hbl⟩, trivial, hbr, hr⟩
          · simp only [Balanced, balance_factor, height_node]
            refine ⟨by omega, ⟨by omega, bal, bbl⟩, by omega, bbr, br⟩
          · simp [toList]
          · simp only [height_node]; omega
          · intro hc; omega
  · simp only [h2, if_false]
    by_cases h4 : height l - height r = -2
    · simp only [h4, if_true]
      cases r with
      | nil => simp at h4; omega
      | node ad ah al ar =>
        simp only [height_node] at h4 gr hh hbf
        simp only [HeightsOk] at hr
        simp only [Balanced, balance_factor] at br
        obtain ⟨hah, hal, har⟩ := hr
        obtain ⟨bah, bal, bar⟩ := br
        have gal := height_ge_of_heightsOk al hal
        have gar := height_ge_of_heightsOk ar har
        simp only [get_bf_node, Option.some_bind]
        by_cases h3 : height al - height ar ≤ 0
        · simp only [h3, if_true]
          rw [make_RR_rotation_node _ _ _ _ _ _ _ gl gal gar]
          refine ⟨_, rfl, ?_, ?_, ?_, ?_, ?_⟩
          · simp only [HeightsOk, height_node]
            exact ⟨trivial, ⟨trivial, hl, hal⟩, har⟩
          · simp only [Balanced, balance_factor, height_node]
            refine ⟨by omega, ⟨by omega, bl, bal⟩, bar⟩
          · simp [toList]
          · simp only [height_node]; omega
          · intro hc; omega
        · simp only [h3, if_false]
          cases al with
          | nil => simp at h3; omega
          | node bd bh bl2 br2 =>
            simp only [height_node] at h3 gal hah bah
            simp only [HeightsOk] at hal
            simp only [Balanced, balance_factor] at bal
            obtain ⟨hbh, hbl, hbr⟩ := hal
            obtain ⟨bbh, bbl, bbr⟩ := bal
            have gbl := height_ge_of_heightsOk bl2 hbl
            have gbr := height_ge_of_heightsOk br2 hbr
            simp only [make_RL_rotation, Option.bind_eq_bind]
            rw [make_LL_rotation_node _ _ _ _ _ _ _ gbl gbr gar]
            simp only [Option.some_bind]
            rw [update_height_node _ _ _ _ gl (by simp only [height_node]; omega)]
            simp only [Option.some_bind]
            rw [make_RR_rotation_node _ _ _ _ _ _ _ gl gbl (by simp only [height_node]; omega)]
            refine ⟨_, rfl, ?_, ?_, ?_, ?_, ?_⟩
            · simp only [HeightsOk, height_node]
              exact ⟨trivial, ⟨trivial, hl, hbl⟩, trivial, hbr, har⟩
            · simp only [Balanced, balance_factor, height_node]
              refine ⟨by omega, ⟨by omega, bl, bbl⟩, by omega, bbr, bar⟩
            · simp [toList]
            · simp only [height_node]; omega
            · intro hc; omega
    · simp only [h4, if_false]
      refine ⟨_, rfl, ?_, ?_, ?_, ?_, ?_⟩
      · exact ⟨hh, hl, hr⟩
      · simp only [Balanced, balance_factor]
        refine ⟨by omega, bl, br⟩
      · simp [toList]
      · simp
      · intro _; rfl

theorem insert_node_spec (cond : α → α → Comparison) (x : α) :
    ∀ (t j : AVLNode α) (n : Int), HeightsOk t → Balanced t →
    ∃ t1 j1 n1, insert_node cond t x j n = some (t1, j1, n1) ∧
      HeightsOk t1 ∧ Balanced t1 ∧
      (height t1 = height t ∨ height t1 = height t + 1) ∧
      toList t1 = insList cond x t ∧
      (search_node cond t x = nil → j1 = node x 0 nil nil ∧ n1 = n + 1) ∧
      (search_node cond t x ≠ nil → j1 = nil ∧ n1 = n ∧ t1 = t) := by
  intro t
  induction t with
  | nil =>
    intro j n _ _
    refine ⟨node x 0 nil nil, node x 0 nil nil, n + 1, rfl, ?_, ?_, ?_, ?_, ?_, ?_⟩
    · simp [HeightsOk]
    · simp [Balanced, balance_factor]
    · simp
    · simp [toList, insList]
    · intro _; exact ⟨rfl, rfl⟩
    · intro hne; exact absurd rfl hne
  | node d h l r ihl ihr =>
    intro j n hok hbal
    obtain ⟨hh, hl, hr⟩ := hok
    obtain ⟨hb, bl, br⟩ := hbal
    simp only [balance_factor] at hb
    have gl := height_ge_of_heightsOk l hl
    have gr := height_ge_of_heightsOk r hr
    cases hc : cond x d with
    | EQUAL =>
      refine ⟨node d h l r, nil, n, ?_, ⟨hh, hl, hr⟩, ?_, ?_, ?_, ?_, ?_⟩
      · simp [insert_node, hc]
      · exact ⟨hb, bl, br⟩
      · simp
      · simp [insList, hc]
      · intro hs; simp [search_node, hc] at hs
      · intro _; exact ⟨rfl, rfl, rfl⟩
    | LESS_THAN =>
      obtain ⟨l1, j1, n1, he, hl1, bl1, hh1, hlist, hnew, hold⟩ := ihl j n hl bl
      have gl1 := height_ge_of_heightsOk l1 hl1
      obtain ⟨t2, hbt, hok2, hbal2, hlist2, hh2, hsame⟩ :=
        balance_tree_spec d (1 + max (height l1) (height r)) l1 r hl1 bl1 hr br rfl
          (by omega)
      refine ⟨t2, j1, n1, ?_, hok2, hbal2, ?_, ?_, ?_, ?_⟩
      · simp only [insert_node, hc, he, Option.bind_eq_bind, Option.some_bind]
        rw [update_height_node _ _ _ _ gl1 gr]
        simp only [Option.some_bind, hbt]
      · simp only [height_node]
        by_cases hin : -1 ≤ height l1 - height r ∧ height l1 - height r ≤ 1
        · rw [hsame hin]; simp only [height_node]; omega
        · omega
      · simp [hlist2, hlist, insList, hc]
      · intro hs
        simp only [search_node, hc] at hs
        exact hnew hs
      · intro hs
        simp only [search_node, hc] at hs
        obtain ⟨e1, e2, e3⟩ := hold hs
        subst e3
        refine ⟨e1, e2, ?_⟩
        rw [hsame (by omega), hh]
    | GREATER_THAN =>
      obtain ⟨r1, j1, n1, he, hr1, br1, hh1, hlist, hnew, hold⟩ := ihr j n hr br
      have gr1 := height_ge_of_heightsOk r1 hr1
      obtain ⟨t2, hbt, hok2, hbal2, hlist2, hh2, hsame⟩ :=
        balance_tree_spec d (1 + max (height l) (height r1)) l r1 hl bl hr1 br1 rfl
          (by omega)
      refine ⟨t2, j1, n1, ?_, hok2, hbal2, ?_, ?_, ?_, ?_⟩
      · simp only [insert_node, hc, he, Option.bind_eq_bind, Option.some_bind]
        rw [update_height_node _ _ _ _ gl gr1]
        simp only [Option.some_bind, hbt]
      · simp only [height_node]
        by_cases hin : -1 ≤ height l - height r1 ∧ height l - height r1 ≤ 1
        · rw [hsame hin]; simp only [height_node]; omega
        · omega
      · simp [hlist2, hlist, insList, hc]
      · intro hs
        simp only [search_node, hc] at hs
        exact hnew hs
      · intro hs
        simp only [search_node, hc] at hs
        obtain ⟨e1, e2, e3⟩ := hold hs
        subst e3
        refine ⟨e1, e2, ?_⟩
        rw [hsame (by omega), hh]

theorem StrictTotal.gt_of_lt {cond : α → α → Comparison} (hc : StrictTotal cond) {a b : α}
    (h : cond a b = LESS_THAN) : cond b a = GREATER_THAN := (hc.flip a b).1 h

theorem StrictTotal.lt_of_gt {cond : α → α → Comparison} (hc : StrictTotal cond) {a b : α}
    (h : cond a b = GREATER_THAN) : cond b a = LESS_THAN := (hc.flip b a).2 h

theorem StrictTotal.equal_symm {cond : α → α → Comparison} (hc : StrictTotal cond) {a b : α}
    (h : cond a b = EQUAL) : cond b a = EQUAL := by
  have := hc.equal_left a b a h
  rw [hc.refl] at this
  exact this.symm

/-- A record below the pivot is below every key that is not below the pivot. -/
theorem StrictTotal.key_gt {cond : α → α → Comparison} (hc : StrictTotal cond) {k d y : α}
    (hy : cond y d = LESS_THAN) (hk : cond k d ≠ LESS_THAN) : cond k y = GREATER_THAN := by
  cases hkd : cond k d with
  | LESS_THAN => exact absurd hkd hk
  | EQUAL => rw [hc.equal_left k d y hkd]; exact hc.gt_of_lt hy
  | GREATER_THAN => exact hc.gt_of_lt (hc.trans _ _ _ hy (hc.lt_of_gt hkd))

/-- A record above the pivot is above every key that is not above the pivot. -/
theorem StrictTotal.key_lt {cond : α → α → Comparison} (hc : StrictTotal cond) {k d y : α}
    (hy : cond d y = LESS_THAN) (hk : cond k d ≠ GREATER_THAN) : cond k y = LESS_THAN := by
  cases hkd : cond k d with
  | GREATER_THAN => exact absurd hkd hk
  | EQUAL => rw [hc.equal_left k d y hkd]; exact hy
  | LESS_THAN => exact hc.trans _ _ _ hkd hy

theorem ordered_node_iff (cond : α → α → Comparison) (d : α) (h : Int) (l r : AVLNode α) :
    Ordered cond (node d h l r) ↔
      Ordered cond l ∧ Ordered cond r ∧ (∀ y ∈ toList l, cond y d = LESS_THAN) ∧
      (∀ y ∈ toList r, cond d y = LESS_THAN) ∧
      (∀ a ∈ toList l, ∀ b ∈ toList r, cond a b = LESS_THAN) := by
  simp only [Ordered, StrictlyIncreasing, toList, List.pairwise_append, List.pairwise_cons,
    List.mem_cons]
  constructor
  · rintro ⟨h1, ⟨h2, h3⟩, h4⟩
    exact ⟨h1, h3, fun y hy => h4 y hy d (Or.inl rfl), h2,
      fun a ha b hb => h4 a ha b (Or.inr hb)⟩
  · rintro ⟨h1, h2, h3, h4, h5⟩
    refine ⟨h1, ⟨h4, h2⟩, ?_⟩
    intro a ha b hb
    rcases hb with rfl | hb
    · exact h3 a ha
    · exact h5 a ha b hb

theorem get_max_node_by_root_spec : ∀ (r : AVLNode α) (d : α) (h : Int) (l : AVLNode α),
    ∃ sd sh sl init, get_max_node_by_root (node d h l r) = node sd sh sl nil ∧
      toList (node d h l r) = init ++ [sd]
  | nil, d, h, l => ⟨d, h, l, toList l, rfl, by simp [toList]⟩
  | node rd rh rl rr, d, h, l => by
      obtain ⟨sd, sh, sl, init, he, hl⟩ := get_max_node_by_root_spec rr rd rh rl
      refine ⟨sd, sh, sl, toList l ++ d :: init, ?_, ?_⟩
      · simp only [get_max_node_by_root]; exact he
      · simp only [toList] at hl ⊢
        rw [hl]; simp

/-- Filtering out the records `EQUAL` to `k` keeps the records on one side of a pivot. -/
theorem filter_ne_equal_of_forall (cond : α → α → Comparison) (k : α) (xs : List α)
    (h : ∀ y ∈ xs, cond k y ≠ EQUAL) :
    xs.filter (fun y => decide (cond k y ≠ EQUAL)) = xs := by
  rw [List.filter_eq_self]
  intro y hy
  simpa using h y hy

theorem remove_node_spec (cond : α → α → Comparison) :
    ∀ (t : AVLNode α) (k : α) (res erase : Bool) (des : List α),
    HeightsOk t → Balanced t →
    ∃ t1 res1 des1, remove_node cond t k res erase des = some (t1, res1, des1) ∧
      HeightsOk t1 ∧ Balanced t1 ∧
      (height t1 = height t ∨ height t1 = height t - 1) ∧
      (search_node cond t k = nil → t1 = t ∧ res1 = res ∧ des1 = des) ∧
      (search_node cond t k ≠ nil → res1 = true) ∧
      (erase = false → des1 = des) ∧
      (∀ d h l r, search_node cond t k = node d h l r → erase = true → des1 = des ++ [d]) ∧
      (StrictTotal cond → Ordered cond t →
        toList t1 = (toList t).filter (fun y => decide (cond k y ≠ EQUAL))) := by
  intro t
  induction t with
  | nil =>
    intro k res erase des _ _
    refine ⟨nil, res, des, by simp [remove_node], trivial, trivial, Or.inl rfl, ?_, ?_, ?_,
      ?_, ?_⟩
    · intro _; exact ⟨rfl, rfl, rfl⟩
    · intro hne; exact absurd rfl hne
    · intro _; rfl
    · intro d h l r hs; simp [search_node] at hs
    · intro _ _; simp [toList]
  | node d h l r ihl ihr =>
    intro k res erase des hok hbal
    obtain ⟨hh, hl, hr⟩ := hok
    obtain ⟨hb, bl, br⟩ := hbal
    simp only [balance_factor] at hb
    have gl := height_ge_of_heightsOk l hl
    have gr := height_ge_of_heightsOk r hr
    cases hc : cond k d with
    | LESS_THAN =>
      obtain ⟨l1, res1, des1, he, hl1, bl1, hh1, habs, hfound, hne, her, hlist⟩ :=
        ihl k res erase des hl bl
      have gl1 := height_ge_of_heightsOk l1 hl1
      obtain ⟨t2, hbt, hok2, hbal2, hlist2, hh2, hsame⟩ :=
        balance_tree_spec d (1 + max (height l1) (height r)) l1 r hl1 bl1 hr br rfl
          (by omega)
      refine ⟨t2, res1, des1, ?_, hok2, hbal2, ?_, ?_, ?_, hne, ?_, ?_⟩
      · simp only [remove_node, hc, he, Option.bind_eq_bind, Option.some_bind]
        rw [update_height_node _ _ _ _ gl1 gr]
        simp only [Option.some_bind, hbt]
      · simp only [height_node]
        by_cases hin : -1 ≤ height l1 - height r ∧ height l1 - height r ≤ 1
        · rw [hsame hin]; simp only [height_node]; omega
        · omega
      · intro hs
        simp only [search_node, hc] at hs
        obtain ⟨e1, e2, e3⟩ := habs hs
        subst e1
        refine ⟨?_, e2, e3⟩
        rw [hsame (by omega), hh]
      · intro hs
        simp only [search_node, hc] at hs
        exact hfound hs
      · intro d2 h2 l2 r2 hs
        simp only [search_node, hc] at hs
        exact her d2 h2 l2 r2 hs
      · intro hst hord
        rw [ordered_node_iff] at hord
        obtain ⟨ol, or_, hld, hrd, hlr⟩ := hord
        rw [hlist2, hlist hst ol]
        simp only [toList, List.filter_append, List.filter_cons, hc]
        rw [filter_ne_equal_of_forall cond k (toList r)
          (fun y hy => by rw [hst.key_lt (hrd y hy) (by rw [hc]; decide)]; decide)]
        simp
    | GREATER_THAN =>
      obtain ⟨r1, res1, des1, he, hr1, br1, hh1, habs, hfound, hne, her, hlist⟩ :=
        ihr k res erase des hr br
      have gr1 := height_ge_of_heightsOk r1 hr1
      obtain ⟨t2, hbt, hok2, hbal2, hlist2, hh2, hsame⟩ :=
        balance_tree_spec d (1 + max (height l) (height r1)) l r1 hl bl hr1 br1 rfl
          (by omega)
      refine ⟨t2, res1, des1, ?_, hok2, hbal2, ?_, ?_, ?_, hne, ?_, ?_⟩
      · simp only [remove_node, hc, he, Option.bind_eq_bind, Option.some_bind]
        rw [update_height_node _ _ _ _ gl gr1]
        simp only [Option.some_bind, hbt]
      · simp only [height_node]
        by_cases hin : -1 ≤ height l - height r1 ∧ height l - height r1 ≤ 1
        · rw [hsame hin]; simp only [height_node]; omega
        · omega
      · intro hs
        simp only [search_node, hc] at hs
        obtain ⟨e1, e2, e3⟩ := habs hs
        subst e1
        refine ⟨?_, e2, e3⟩
        rw [hsame (by omega), hh]
      · intro hs
        simp only [search_node, hc] at hs
        exact hfound hs
      · intro d2 h2 l2 r2 hs
        simp only [search_node, hc] at hs
        exact her d2 h2 l2 r2 hs
      · intro hst hord
        rw [ordered_node_iff] at hord
        obtain ⟨ol, or_, hld, hrd, hlr⟩ := hord
        rw [hlist2, hlist hst or_]
        simp only [toList, List.filter_append, List.filter_cons, hc]
        rw [filter_ne_equal_of_forall cond k (toList l)
          (fun y hy => by rw [hst.key_gt (hld y hy) (by rw [hc]; decide)]; decide)]
        simp
    | EQUAL =>
      have hfilter : StrictTotal cond → Ordered cond (node d h l r) →
          (toList (node d h l r)).filter (fun y => decide (cond k y ≠ EQUAL)) =
            toList l ++ toList r := by
        intro hst hord
        rw [ordered_node_iff] at hord
        obtain ⟨ol, or_, hld, hrd, hlr⟩ := hord
        simp only [toList, List.filter_append, List.filter_cons, hc]
        rw [filter_ne_equal_of_forall cond k (toList l)
          (fun y hy => by rw [hst.key_gt (hld y hy) (by rw [hc]; decide)]; decide)]
        rw [filter_ne_equal_of_forall cond k (toList r)
          (fun y hy => by rw [hst.key_lt (hrd y hy) (by rw [hc]; decide)]; decide)]
        simp
      have hsearch : search_node cond (node d h l r) k = node d h l r := by
        simp [search_node, hc]
      cases l with
      | nil =>
        cases r with
        | nil =>
          refine ⟨nil, true, if erase then des ++ [d] else des, ?_, trivial, trivial, ?_,
            ?_, ?_, ?_, ?_, ?_⟩
          · simp [remove_node, hc]
          · simp only [height_nil, height_node]; simp at hh; omega
          · intro hs; rw [hsearch] at hs; exact absurd hs (by simp)
          · intro _; rfl
          · intro he; simp [he]
          · intro d2 h2 l2 r2 hs he
            rw [hsearch] at hs
            injection hs with e1 _ _ _
            simp [he, e1]
          · intro hst hord
            rw [hfilter hst hord]; simp [toList]
        | node rd rh rl rr =>
          refine ⟨node rd rh rl rr, true, if erase then des ++ [d] else des, ?_, hr, br, ?_,
            ?_, ?_, ?_, ?_, ?_⟩
          · simp [remove_node, hc]
          · simp only [height_nil, height_node] at *; omega
          · intro hs; rw [hsearch] at hs; exact absurd hs (by simp)
          · intro _; rfl
          · intro he; simp [he]
          · intro d2 h2 l2 r2 hs he
            rw [hsearch] at hs
            injection hs with e1 _ _ _
            simp [he, e1]
          · intro hst hord
            rw [hfilter hst hord]; simp [toList]
      | node ld lh ll lr =>
        cases r with
        | nil =>
          refine ⟨node ld lh ll lr, true, if erase then des ++ [d] else des, ?_, hl, bl, ?_,
            ?_, ?_, ?_, ?_, ?_⟩
          · simp [remove_node, hc]
          · simp only [height_nil, height_node] at *; omega
          · intro hs; rw [hsearch] at hs; exact absurd hs (by simp)
          · intro _; rfl
          · intro he; simp [he]
          · intro d2 h2 l2 r2 hs he
            rw [hsearch] at hs
            injection hs with e1 _ _ _
            simp [he, e1]
          · intro hst hord
            rw [hfilter hst hord]; simp [toList]
        | node rd rh rl rr =>
          obtain ⟨sd, sh, sl, init, hmax, hinit⟩ := get_max_node_by_root_spec lr ld lh ll
          obtain ⟨l1, res1, des1, he, hl1, bl1, hh1, habs, hfound, hne, her, hlist⟩ :=
            ihl sd res false (if erase then des ++ [d] else des) hl bl
          have gl1 := height_ge_of_heightsOk l1 hl1
          obtain ⟨t2, hbt, hok2, hbal2, hlist2, hh2, hsame⟩ :=
            balance_tree_spec sd (1 + max (height l1) (height (node rd rh rl rr))) l1
              (node rd rh rl rr) hl1 bl1 hr br rfl (by omega)
          refine ⟨t2, true, des1, ?_, hok2, hbal2, ?_, ?_, ?_, ?_, ?_, ?_⟩
          · simp only [remove_node, hc, find_successor, hmax, he, Option.bind_eq_bind,
              Option.some_bind]
            rw [update_height_node _ _ _ _ gl1 gr]
            simp only [Option.some_bind, hbt]
          · simp only [height_node] at *
            by_cases hin : -1 ≤ height l1 - rh ∧ height l1 - rh ≤ 1
            · rw [hsame hin]; simp only [height_node]; omega
            · omega
          · intro hs; rw [hsearch] at hs; exact absurd hs (by simp)
          · intro _; rfl
          · intro he2; rw [hne rfl]; simp [he2]
          · intro d2 h2 l2 r2 hs he2
            rw [hsearch] at hs
            injection hs with e1 _ _ _
            rw [hne rfl]; simp [he2, e1]
          · intro hst hord
            rw [hfilter hst hord, hlist2]
            have hord2 := hord
            rw [ordered_node_iff] at hord2
            obtain ⟨ol, or_, hld, hrd, hlr⟩ := hord2
            rw [hlist hst ol, hinit]
            have ol2 : StrictlyIncreasing cond (init ++ [sd]) := by
              rw [← hinit]; exact ol
            simp only [StrictlyIncreasing, List.pairwise_append, List.mem_singleton] at ol2
            simp only [List.filter_append, List.filter_cons, hst.refl]
            rw [filter_ne_equal_of_forall cond sd init
              (fun y hy => by rw [hst.gt_of_lt (ol2.2.2 y hy sd rfl)]; decide)]
            simp

theorem inorder_travel_eq : ∀ (t : AVLNode α) (out : List α),
    inorder_travel t out = out ++ toList t
  | nil, out => by simp [inorder_travel, toList]
  | node d h l r, out => by
      simp [inorder_travel, toList, inorder_travel_eq l, inorder_travel_eq r]

theorem length_toList : ∀ (t : AVLNode α), (toList t).length = size t
  | nil => rfl
  | node d h l r => by
      simp only [toList, size, List.length_append, List.length_cons, length_toList l,
        length_toList r]
      omega

theorem snapshot_eq (t : AVLTree α) : snapshot t = toList t.root := by
  obtain ⟨root, n⟩ := t
  cases root with
  | nil => simp [snapshot, inorder, toList]
  | node d h l r => simp [snapshot, inorder, inorder_travel_eq]

theorem search_node_sound (cond : α → α → Comparison) (k : α) :
    ∀ (t : AVLNode α) (d : α) (h : Int) (l r : AVLNode α),
      search_node cond t k = node d h l r → d ∈ toList t ∧ cond k d = EQUAL
  | nil, d, h, l, r, hs => by simp [search_node] at hs
  | node d0 h0 l0 r0, d, h, l, r, hs => by
      cases hc : cond k d0 with
      | LESS_THAN =>
        simp only [search_node, hc] at hs
        obtain ⟨h1, h2⟩ := search_node_sound cond k l0 d h l r hs
        exact ⟨by simp [toList, h1], h2⟩
      | GREATER_THAN =>
        simp only [search_node, hc] at hs
        obtain ⟨h1, h2⟩ := search_node_sound cond k r0 d h l r hs
        exact ⟨by simp [toList, h1], h2⟩
      | EQUAL =>
        simp only [search_node, hc] at hs
        injection hs with e1 e2 e3 e4
        subst e1
        exact ⟨by simp [toList], hc⟩

theorem search_node_complete (cond : α → α → Comparison) (hst : StrictTotal cond) (k : α) :
    ∀ (t : AVLNode α), Ordered cond t → ∀ y ∈ toList t, cond k y = EQUAL →
      ∃ h l r, search_node cond t k = node y h l r
  | nil, _, y, hy, _ => by simp [toList] at hy
  | node d0 h0 l0 r0, hord, y, hy, he => by
      rw [ordered_node_iff] at hord
      obtain ⟨ol, or_, hld, hrd, hlr⟩ := hord
      simp only [toList, List.mem_append, List.mem_cons] at hy
      rcases hy with hy | rfl | hy
      · have hlt : cond k d0 = LESS_THAN := by
          rw [hst.equal_left k y d0 he]; exact hld y hy
        simp only [search_node, hlt]
        exact search_node_complete cond hst k l0 ol y hy he
      · exact ⟨h0, l0, r0, by simp [search_node, he]⟩
      · have hgt : cond k d0 = GREATER_THAN := by
          rw [hst.equal_left k y d0 he]; exact hst.gt_of_lt (hrd y hy)
        simp only [search_node, hgt]
        exact search_node_complete cond hst k r0 or_ y hy he

theorem search_node_eq_nil_iff (cond : α → α → Comparison) (hst : StrictTotal cond) (k : α)
    (t : AVLNode α) (hord : Ordered cond t) :
    search_node cond t k = nil ↔ ∀ y ∈ toList t, cond k y ≠ EQUAL := by
  constructor
  · intro hs y hy he
    obtain ⟨h, l, r, hf⟩ := search_node_complete cond hst k t hord y hy he
    rw [hs] at hf
    exact AVLNode.noConfusion hf
  · intro hall
    cases hs : search_node cond t k with
    | nil => rfl
    | node d h l r =>
      obtain ⟨h1, h2⟩ := search_node_sound cond k t d h l r hs
      exact absurd h2 (hall d h1)

theorem insList_of_found (cond : α → α → Comparison) (x : α) :
    ∀ (t : AVLNode α), search_node cond t x ≠ nil → insList cond x t = toList t
  | nil, hs => absurd rfl hs
  | node d h l r, hs => by
      cases hc : cond x d with
      | LESS_THAN =>
        simp only [search_node, hc] at hs
        simp [insList, hc, toList, insList_of_found cond x l hs]
      | GREATER_THAN =>
        simp only [search_node, hc] at hs
        simp [insList, hc, toList, insList_of_found cond x r hs]
      | EQUAL => simp [insList, hc]

theorem insList_of_absent (cond : α → α → Comparison) (hst : StrictTotal cond) (x : α) :
    ∀ (t : AVLNode α), Ordered cond t → search_node cond t x = nil →
      ∃ l1 l2, toList t = l1 ++ l2 ∧ insList cond x t = l1 ++ x :: l2 ∧
        (∀ a ∈ l1, cond a x = LESS_THAN) ∧ (∀ b ∈ l2, cond x b = LESS_THAN)
  | nil, _, _ => ⟨[], [], by simp [toList], by simp [insList], by simp, by simp⟩
  | node d h l r, hord, hs => by
      rw [ordered_node_iff] at hord
      obtain ⟨ol, or_, hld, hrd, hlr⟩ := hord
      cases hc : cond x d with
      | LESS_THAN =>
        simp only [search_node, hc] at hs
        obtain ⟨l1, l2, e1, e2, h1, h2⟩ := insList_of_absent cond hst x l ol hs
        refine ⟨l1, l2 ++ d :: toList r, ?_, ?_, h1, ?_⟩
        · simp [toList, e1]
        · simp [insList, hc, e2]
        · intro b hb
          simp only [List.mem_append, List.mem_cons] at hb
          rcases hb with hb | rfl | hb
          · exact h2 b hb
          · exact hc
          · exact hst.trans _ _ _ hc (hrd b hb)
      | GREATER_THAN =>
        simp only [search_node, hc] at hs
        obtain ⟨l1, l2, e1, e2, h1, h2⟩ := insList_of_absent cond hst x r or_ hs
        refine ⟨toList l ++ d :: l1, l2, ?_, ?_, ?_, h2⟩
        · simp [toList, e1]
        · simp [insList, hc, e2]
        · intro a ha
          simp only [List.mem_append, List.mem_cons] at ha
          rcases ha with ha | rfl | ha
          · exact hst.trans _ _ _ (hld a ha) (hst.lt_of_gt hc)
          · exact hst.lt_of_gt hc
          · exact h1 a ha
      | EQUAL => simp [search_node, hc] at hs

theorem strictlyIncreasing_insert_mid (cond : α → α → Comparison) (x : α) (l1 l2 : List α)
    (h : StrictlyIncreasing cond (l1 ++ l2)) (h1 : ∀ a ∈ l1, cond a x = LESS_THAN)
    (h2 : ∀ b ∈ l2, cond x b = LESS_THAN) : StrictlyIncreasing cond (l1 ++ x :: l2) := by
  simp only [StrictlyIncreasing, List.pairwise_append, List.pairwise_cons, List.mem_cons] at h ⊢
  obtain ⟨p1, p2, p3⟩ := h
  refine ⟨p1, ⟨h2, p2⟩, ?_⟩
  intro a ha b hb
  rcases hb with rfl | hb
  · exact h1 a ha
  · exact p3 a ha b hb

theorem strictlyIncreasing_filter (cond : α → α → Comparison) (p : α → Bool) (xs : List α)
    (h : StrictlyIncreasing cond xs) : StrictlyIncreasing cond (xs.filter p) :=
  List.Pairwise.filter p h

theorem natCond_strictTotal : StrictTotal natCond where
  refl := by intro a; simp [natCond]
  flip := by
    intro a b
    simp only [natCond]
    split_ifs <;> simp <;> omega
  trans := by
    intro a b c
    simp only [natCond]
    split_ifs <;> simp <;> omega
  equal_left := by
    intro a b c
    simp only [natCond]
    split_ifs <;> simp <;> omega

/-- `insert` on a well-formed tree: it returns, the result is well-formed, a record that
is already present leaves the tree as it was, and a new record is added at its sorted
position. -/
theorem insert_spec (cond : α → α → Comparison) (hst : StrictTotal cond) (t : AVLTree α)
    (x : α) (hwf : WellFormed cond t.root) :
    ∃ t1 j, insert cond t x = some (t1, j) ∧ WellFormed cond t1.root ∧
      (search_node cond t.root x ≠ nil → t1 = t ∧ j = nil) ∧
      (search_node cond t.root x = nil →
        j = node x 0 nil nil ∧ t1.num_of_nodes = t.num_of_nodes + 1 ∧
        ∃ l1 l2, toList t.root = l1 ++ l2 ∧ toList t1.root = l1 ++ x :: l2 ∧
          (∀ a ∈ l1, cond a x = LESS_THAN) ∧ (∀ b ∈ l2, cond x b = LESS_THAN)) := by
  obtain ⟨hord, hh, hb⟩ := hwf
  obtain ⟨r1, j1, n1, he, hh1, hb1, _, hlist, hnew, hold⟩ :=
    insert_node_spec cond x t.root nil t.num_of_nodes hh hb
  refine ⟨⟨r1, n1⟩, j1, ?_, ?_, ?_, ?_⟩
  · simp [insert, he]
  · refine ⟨?_, hh1, hb1⟩
    show StrictlyIncreasing cond (toList r1)
    rw [hlist]
    by_cases hs : search_node cond t.root x = nil
    · obtain ⟨l1, l2, e1, e2, h1, h2⟩ := insList_of_absent cond hst x t.root hord hs
      rw [e2]
      apply strictlyIncreasing_insert_mid cond x l1 l2 _ h1 h2
      rw [← e1]; exact hord
    · rw [insList_of_found cond x t.root hs]; exact hord
  · intro hs
    obtain ⟨e1, e2, e3⟩ := hold hs
    subst e2 e3
    exact ⟨rfl, e1⟩
  · intro hs
    obtain ⟨e1, e2⟩ := hnew hs
    refine ⟨e1, e2, ?_⟩
    obtain ⟨l1, l2, e3, e4, h1, h2⟩ := insList_of_absent cond hst x t.root hord hs
    exact ⟨l1, l2, e3, by simp only; rw [hlist, e4], h1, h2⟩

/-- `remove` on a well-formed tree: it returns, the result is well-formed, an absent key
leaves the tree as it was, and the in-order sequence loses the records `EQUAL` to the
key. -/
theorem remove_spec (cond : α → α → Comparison) (hst : StrictTotal cond) (t : AVLTree α)
    (k : α) (hwf : WellFormed cond t.root) :
    ∃ t1 b, remove cond t k = some (t1, b) ∧ WellFormed cond t1.root ∧
      toList t1.root = (toList t.root).filter (fun y => decide (cond k y ≠ EQUAL)) ∧
      (search_node cond t.root k = nil → t1 = t ∧ b = false) ∧
      (search_node cond t.root k ≠ nil →
        b = true ∧ t1.num_of_nodes = t.num_of_nodes - 1) := by
  obtain ⟨hord, hh, hb⟩ := hwf
  obtain ⟨r1, res1, des1, he, hh1, hb1, _, habs, hfound, _, _, hlist⟩ :=
    remove_node_spec cond t.root k false false [] hh hb
  refine ⟨⟨r1, if res1 = true then t.num_of_nodes - 1 else t.num_of_nodes⟩, res1, ?_, ?_, ?_,
    ?_, ?_⟩
  · simp [remove, he]
  · refine ⟨?_, hh1, hb1⟩
    show StrictlyIncreasing cond (toList r1)
    rw [hlist hst hord]
    exact strictlyIncreasing_filter cond _ _ hord
  · exact hlist hst hord
  · intro hs
    obtain ⟨e1, e2, _⟩ := habs hs
    subst e1 e2
    simp
  · intro hs
    have := hfound hs
    subst this
    simp

/-- In a strictly increasing sequence, filtering out the records `EQUAL` to a key deletes
exactly the one record that is `EQUAL` to it. -/
theorem filter_equal_split (cond : α → α → Comparison) (hst : StrictTotal cond) (k x : α)
    (l1 l2 : List α) (h : StrictlyIncreasing cond (l1 ++ x :: l2)) (he : cond k x = EQUAL) :
    (l1 ++ x :: l2).filter (fun y => decide (cond k y ≠ EQUAL)) = l1 ++ l2 := by
  simp only [StrictlyIncreasing, List.pairwise_append, List.pairwise_cons, List.mem_cons] at h
  obtain ⟨_, ⟨h2, _⟩, h3⟩ := h
  simp only [List.filter_append, List.filter_cons, he]
  rw [filter_ne_equal_of_forall cond k l1
    (fun y hy => by
      rw [hst.equal_left k x y he, hst.gt_of_lt (h3 y hy x (Or.inl rfl))]; decide)]
  rw [filter_ne_equal_of_forall cond k l2
    (fun y hy => by rw [hst.equal_left k x y he, h2 y hy]; decide)]
  simp

theorem wellFormed_empty (cond : α → α → Comparison) :
    WellFormed cond (AVLTree.empty : AVLTree α).root :=
  ⟨List.Pairwise.nil, trivial, trivial⟩

/-! ## Lemmas about the predecessor query -/

theorem ancestors_lt (cond : α → α → Comparison) (k d : α) (h : Int) (l r : AVLNode α)
    (hc : cond k d = LESS_THAN) :
    ancestors cond (node d h l r) k = ancestors cond l k ++ [node d h l r] := by
  simp only [ancestors, hc]

theorem ancestors_gt (cond : α → α → Comparison) (k d : α) (h : Int) (l r : AVLNode α)
    (hc : cond k d = GREATER_THAN) :
    ancestors cond (node d h l r) k = ancestors cond r k ++ [node d h l r] := by
  simp only [ancestors, hc]

theorem ancestors_eq (cond : α → α → Comparison) (k d : α) (h : Int) (l r : AVLNode α)
    (hc : cond k d = EQUAL) : ancestors cond (node d h l r) k = [] := by
  simp only [ancestors, hc]

theorem ancestors_mem (cond : α → α → Comparison) (k : α) :
    ∀ (s f : AVLNode α), f ∈ ancestors cond s k →
      ∃ fd fh fl fr, f = node fd fh fl fr ∧ fd ∈ toList s ∧ cond k fd ≠ EQUAL
  | nil, f, hf => by simp [ancestors] at hf
  | node d h l r, f, hf => by
      cases hc : cond k d with
      | EQUAL => simp [ancestors, hc] at hf
      | LESS_THAN =>
        simp only [ancestors, hc, List.mem_append, List.mem_singleton] at hf
        rcases hf with hf | rfl
        · obtain ⟨fd, fh, fl, fr, e, hm, hne⟩ := ancestors_mem cond k l f hf
          exact ⟨fd, fh, fl, fr, e, by simp [toList, hm], hne⟩
        · exact ⟨d, h, l, r, rfl, by simp [toList], by rw [hc]; decide⟩
      | GREATER_THAN =>
        simp only [ancestors, hc, List.mem_append, List.mem_singleton] at hf
        rcases hf with hf | rfl
        · obtain ⟨fd, fh, fl, fr, e, hm, hne⟩ := ancestors_mem cond k r f hf
          exact ⟨fd, fh, fl, fr, e, by simp [toList, hm], hne⟩
        · exact ⟨d, h, l, r, rfl, by simp [toList], by rw [hc]; decide⟩

theorem ancestors_congr (cond : α → α → Comparison) (hst : StrictTotal cond) (k k2 : α)
    (he : cond k k2 = EQUAL) : ∀ (s : AVLNode α), ancestors cond s k = ancestors cond s k2
  | nil => rfl
  | node d h l r => by
      simp only [ancestors, hst.equal_left k k2 d he, ancestors_congr cond hst k k2 he l,
        ancestors_congr cond hst k k2 he r]

theorem ancestors_length (cond : α → α → Comparison) (k : α) :
    ∀ (s : AVLNode α), (ancestors cond s k).length ≤ size s
  | nil => by simp [ancestors, size]
  | node d h l r => by
      have h1 := ancestors_length cond k l
      have h2 := ancestors_length cond k r
      cases hc : cond k d <;> simp [ancestors, hc, size] <;> omega

theorem headD_append_of_ne_nil (xs ys : List (AVLNode α)) (a : AVLNode α) (h : xs ≠ []) :
    (xs ++ ys).headD a = xs.headD a := by
  cases xs with
  | nil => exact absurd rfl h
  | cons x xs => rfl

theorem ancestors_ne_nil (cond : α → α → Comparison) (k d : α) (h : Int) (l r : AVLNode α)
    (hne : cond k d ≠ EQUAL) : ancestors cond (node d h l r) k ≠ [] := by
  cases hc : cond k d with
  | EQUAL => exact absurd hc hne
  | LESS_THAN => simp [ancestors, hc]
  | GREATER_THAN => simp [ancestors, hc]

theorem get_father_node [DecidableEq α] (cond : α → α → Comparison)
    (rd : α) (rh : Int) (rl rr : AVLNode α) (d : α) (h : Int) (l r : AVLNode α) (data : α)
    (hroot : data ≠ rd) :
    get_father cond (node rd rh rl rr) (node d h l r) data =
      (check_if_father cond (node d h l r) data).bind (fun isFather =>
        if isFather = true then some (node d h l r)
        else
          match cond data d with
          | LESS_THAN => get_father cond (node rd rh rl rr) l data
          | GREATER_THAN => get_father cond (node rd rh rl rr) r data
          | EQUAL => some nil) := by
  rw [get_father]
  simp only [hroot, if_false, Option.bind_eq_bind]

theorem check_if_father_false (cond : α → α → Comparison) (d : α) (h : Int)
    (l r : AVLNode α) (data : α)
    (hl : ∀ y, data? l = some y → cond data y ≠ EQUAL)
    (hr : ∀ y, data? r = some y → cond data y ≠ EQUAL) :
    check_if_father cond (node d h l r) data = some false := by
  cases l with
  | nil =>
    cases r with
    | nil => rfl
    | node d2 h2 l2 r2 =>
      have := hr d2 rfl
      simp [check_if_father, this]
  | node d1 h1 l1 r1 =>
    have h1 := hl d1 rfl
    cases r with
    | nil => simp [check_if_father, h1]
    | node d2 h2 l2 r2 =>
      have := hr d2 rfl
      simp [check_if_father, this, h1]

theorem check_if_father_left (cond : α → α → Comparison) (d : α) (h : Int)
    (d1 : α) (h1 : Int) (l1 r1 r : AVLNode α) (data : α)
    (he : cond data d1 = EQUAL) :
    check_if_father cond (node d h (node d1 h1 l1 r1) r) data = some true := by
  cases r <;> simp [check_if_father, he]

theorem check_if_father_right (cond : α → α → Comparison) (d : α) (h : Int)
    (d2 : α) (h2 : Int) (l2 r2 l : AVLNode α) (data : α)
    (he : cond data d2 = EQUAL) :
    check_if_father cond (node d h l (node d2 h2 l2 r2)) data = some true := by
  cases l <;> simp [check_if_father, he]

theorem data?_mem : ∀ (s : AVLNode α) (y : α), data? s = some y → y ∈ toList s
  | nil, y, h => by simp [data?] at h
  | node d _ l r, y, h => by
      simp only [data?, Option.some.injEq] at h
      subst h
      simp [toList]

theorem get_father_descend [DecidableEq α] (cond : α → α → Comparison) (hst : StrictTotal cond)
    (rd : α) (rh : Int) (rl rr : AVLNode α) (data : α) (hroot : data ≠ rd) :
    ∀ (s : AVLNode α), Ordered cond s → (∃ x ∈ toList s, cond data x = EQUAL) →
      get_father cond (node rd rh rl rr) s data = some ((ancestors cond s data).headD nil)
  | nil, _, hx => by simp [toList] at hx
  | node d h l r, hord, hx => by
      obtain ⟨x, hx, he⟩ := hx
      rw [ordered_node_iff] at hord
      obtain ⟨ol, or_, hld, hrd, hlr⟩ := hord
      simp only [toList, List.mem_append, List.mem_cons] at hx
      rw [get_father_node cond rd rh rl rr d h l r data hroot]
      cases hc : cond data d with
      | EQUAL =>
        have hr : ∀ y ∈ toList r, cond data y = LESS_THAN :=
          fun y hy => hst.key_lt (hrd y hy) (by rw [hc]; decide)
        have hl : ∀ y ∈ toList l, cond data y = GREATER_THAN :=
          fun y hy => hst.key_gt (hld y hy) (by rw [hc]; decide)
        rw [check_if_father_false cond d h l r data
          (fun y hy => by rw [hl y (data?_mem l y hy)]; decide)
          (fun y hy => by rw [hr y (data?_mem r y hy)]; decide)]
        simp [ancestors, hc]
      | LESS_THAN =>
        have hr : ∀ y ∈ toList r, cond data y = LESS_THAN :=
          fun y hy => hst.key_lt (hrd y hy) (by rw [hc]; decide)
        have hxl : x ∈ toList l := by
          rcases hx with hx | rfl | hx
          · exact hx
          · rw [hc] at he; exact Comparison.noConfusion he
          · rw [hr x hx] at he; exact Comparison.noConfusion he
        have ih := get_father_descend cond hst rd rh rl rr data hroot l ol ⟨x, hxl, he⟩
        cases l with
        | nil => simp [toList] at hxl
        | node d1 h1 l1 r1 =>
          by_cases he1 : cond data d1 = EQUAL
          · rw [check_if_father_left cond d h d1 h1 l1 r1 r data he1]
            simp [ancestors, hc, he1]
          · rw [check_if_father_false cond d h _ r data
              (fun y hy => by simp only [data?, Option.some.injEq] at hy; rw [← hy]; exact he1)
              (fun y hy => by rw [hr y (data?_mem r y hy)]; decide)]
            simp only [Option.some_bind, Bool.false_eq_true, if_false]
            rw [ih, ancestors_lt cond data d h _ r hc,
              headD_append_of_ne_nil _ _ _ (ancestors_ne_nil cond data d1 h1 l1 r1 he1)]
      | GREATER_THAN =>
        have hl : ∀ y ∈ toList l, cond data y = GREATER_THAN :=
          fun y hy => hst.key_gt (hld y hy) (by rw [hc]; decide)
        have hxr : x ∈ toList r := by
          rcases hx with hx | rfl | hx
          · rw [hl x hx] at he; exact Comparison.noConfusion he
          · rw [hc] at he; exact Comparison.noConfusion he
          · exact hx
        have ih := get_father_descend cond hst rd rh rl rr data hroot r or_ ⟨x, hxr, he⟩
        cases r with
        | nil => simp [toList] at hxr
        | node d2 h2 l2 r2 =>
          by_cases he2 : cond data d2 = EQUAL
          · rw [check_if_father_right cond d h d2 h2 l2 r2 l data he2]
            simp [ancestors, hc, he2]
          · rw [check_if_father_false cond d h l _ data
              (fun y hy => by rw [hl y (data?_mem l y hy)]; decide)
              (fun y hy => by simp only [data?, Option.some.injEq] at hy; rw [← hy]; exact he2)]
            simp only [Option.some_bind, Bool.false_eq_true, if_false]
            rw [ih, ancestors_gt cond data d h l _ hc,
              headD_append_of_ne_nil _ _ _ (ancestors_ne_nil cond data d2 h2 l2 r2 he2)]

/-- `get_father(root, data)` for a stored record: the parent of its node, or null for the
root's record. -/
theorem get_father_root [DecidableEq α] (cond : α → α → Comparison) (hst : StrictTotal cond)
    (T : AVLNode α) (hord : Ordered cond T) (data : α) (hmem : data ∈ toList T) :
    get_father cond T T data = some ((ancestors cond T data).headD nil) := by
  cases T with
  | nil => simp [toList] at hmem
  | node rd rh rl rr =>
    by_cases hroot : data = rd
    · subst hroot
      rw [ancestors_eq cond data data rh rl rr (hst.refl data)]
      simp [get_father]
    · exact get_father_descend cond hst rd rh rl rr data hroot _ hord
        ⟨data, hmem, hst.refl data⟩

/-- The ancestors of an ancestor are the ancestors that follow it. -/
theorem ancestors_suffix (cond : α → α → Comparison) (hst : StrictTotal cond) (k : α) :
    ∀ (T : AVLNode α), Ordered cond T → ∀ (A B : List (AVLNode α)) (fd : α) (fh : Int)
      (fl fr : AVLNode α), A ++ node fd fh fl fr :: B = ancestors cond T k →
      ancestors cond T fd = B
  | nil, _, A, B, fd, fh, fl, fr, h => by simp [ancestors] at h
  | node d h l r, hord, A, B, fd, fh, fl, fr, hsplit => by
      have hord2 := hord
      rw [ordered_node_iff] at hord2
      obtain ⟨ol, or_, hld, hrd, hlr⟩ := hord2
      cases hc : cond k d with
      | EQUAL =>
        rw [ancestors_eq cond k d h l r hc] at hsplit
        simp at hsplit
      | LESS_THAN =>
        rw [ancestors_lt cond k d h l r hc] at hsplit
        rcases List.eq_nil_or_concat B with rfl | ⟨B1, b, rfl⟩
        · have := List.append_inj' hsplit rfl
          obtain ⟨_, e2⟩ := this
          injection e2 with e3 _
          injection e3 with e4 _ _ _
          subst e4
          exact ancestors_eq cond fd fd h l r (hst.refl fd)
        · rw [List.concat_eq_append, ← List.cons_append, ← List.append_assoc] at hsplit
          obtain ⟨e1, e2⟩ := List.append_inj' hsplit rfl
          injection e2 with e3 _
          subst e3
          have ih := ancestors_suffix cond hst k l ol A B1 fd fh fl fr e1
          obtain ⟨fd2, _, _, _, e5, hm, _⟩ :=
            ancestors_mem cond k l (node fd fh fl fr) (by rw [← e1]; simp)
          injection e5 with e6 _ _ _
          subst e6
          rw [ancestors_lt cond fd d h l r (hld fd hm), ih, List.concat_eq_append]
      | GREATER_THAN =>
        rw [ancestors_gt cond k d h l r hc] at hsplit
        rcases List.eq_nil_or_concat B with rfl | ⟨B1, b, rfl⟩
        · have := List.append_inj' hsplit rfl
          obtain ⟨_, e2⟩ := this
          injection e2 with e3 _
          injection e3 with e4 _ _ _
          subst e4
          exact ancestors_eq cond fd fd h l r (hst.refl fd)
        · rw [List.concat_eq_append, ← List.cons_append, ← List.append_assoc] at hsplit
          obtain ⟨e1, e2⟩ := List.append_inj' hsplit rfl
          injection e2 with e3 _
          subst e3
          have ih := ancestors_suffix cond hst k r or_ A B1 fd fh fl fr e1
          obtain ⟨fd2, _, _, _, e5, hm, _⟩ :=
            ancestors_mem cond k r (node fd fh fl fr) (by rw [← e1]; simp)
          injection e5 with e6 _ _ _
          subst e6
          rw [ancestors_gt cond fd d h l r (hst.gt_of_lt (hrd fd hm)), ih,
            List.concat_eq_append]

/-- The `while` loop of `get_closest_left`, started at an ancestor of the node that holds
the key, ends within as many iterations as there are ancestors left and returns the
first of them whose record is below the key. -/
theorem closest_left_loop_spec [DecidableEq α] (cond : α → α → Comparison)
    (hst : StrictTotal cond) (T : AVLNode α) (hord : Ordered cond T) (k : α) :
    ∀ (B A : List (AVLNode α)), A ++ B = ancestors cond T k →
      ∀ fuel, B.length < fuel →
        closest_left_loop cond T k fuel (B.headD nil) = some (firstSmaller cond k B)
  | [], _, _, fuel, hf => by
      cases fuel with
      | zero => simp at hf
      | succ n => simp [closest_left_loop, firstSmaller]
  | f :: B, A, hsplit, fuel, hf => by
      cases fuel with
      | zero => simp at hf
      | succ n =>
        obtain ⟨fd, fh, fl, fr, e, hm, hne⟩ :=
          ancestors_mem cond k T f (by rw [← hsplit]; simp)
        subst e
        have hsuf := ancestors_suffix cond hst k T hord A B fd fh fl fr hsplit
        have ih := closest_left_loop_spec cond hst T hord k B (A ++ [node fd fh fl fr])
          (by rw [← hsplit]; simp) n (by simpa using hf)
        simp only [List.headD_cons]
        cases hc : cond k fd with
        | EQUAL => exact absurd hc hne
        | GREATER_THAN => simp [closest_left_loop, firstSmaller, hc]
        | LESS_THAN =>
          simp only [closest_left_loop, firstSmaller, hc, Option.bind_eq_bind]
          rw [get_father_root cond hst T hord fd hm, hsuf]
          simp only [Option.some_bind]
          exact ih

theorem firstSmaller_append_of_nil (cond : α → α → Comparison) (k : α) :
    ∀ (A B : List (AVLNode α)), firstSmaller cond k A = nil →
      firstSmaller cond k (A ++ B) = firstSmaller cond k B
  | [], B, _ => rfl
  | nil :: A, B, h => by
      simp only [firstSmaller, List.cons_append] at h ⊢
      exact firstSmaller_append_of_nil cond k A B h
  | node d hh l r :: A, B, h => by
      cases hc : cond k d with
      | GREATER_THAN => simp [firstSmaller, hc] at h
      | LESS_THAN =>
        simp only [firstSmaller, hc, List.cons_append] at h ⊢
        exact firstSmaller_append_of_nil cond k A B h
      | EQUAL =>
        simp only [firstSmaller, hc, List.cons_append] at h ⊢
        exact firstSmaller_append_of_nil cond k A B h

theorem firstSmaller_append_of_node (cond : α → α → Comparison) (k : α) :
    ∀ (A B : List (AVLNode α)) (d : α) (h : Int) (l r : AVLNode α),
      firstSmaller cond k A = node d h l r →
      firstSmaller cond k (A ++ B) = node d h l r
  | [], B, d, h, l, r, hf => by simp [firstSmaller] at hf
  | nil :: A, B, d, h, l, r, hf => by
      simp only [firstSmaller, List.cons_append] at hf ⊢
      exact firstSmaller_append_of_node cond k A B d h l r hf
  | node d0 h0 l0 r0 :: A, B, d, h, l, r, hf => by
      cases hc : cond k d0 with
      | GREATER_THAN => simpa [firstSmaller, hc] using hf
      | LESS_THAN =>
        simp only [firstSmaller, hc, List.cons_append] at hf ⊢
        exact firstSmaller_append_of_node cond k A B d h l r hf
      | EQUAL =>
        simp only [firstSmaller, hc, List.cons_append] at hf ⊢
        exact firstSmaller_append_of_node cond k A B d h l r hf

theorem recordsBelow_eq_nil (cond : α → α → Comparison) (k : α) (xs : List α)
    (h : ∀ y ∈ xs, cond y k ≠ LESS_THAN) : recordsBelow cond k xs = [] := by
  simp only [recordsBelow, List.filter_eq_nil_iff]
  intro y hy
  simpa using h y hy

theorem recordsBelow_eq_self (cond : α → α → Comparison) (k : α) (xs : List α)
    (h : ∀ y ∈ xs, cond y k = LESS_THAN) : recordsBelow cond k xs = xs := by
  simp only [recordsBelow, List.filter_eq_self]
  intro y hy
  simpa using h y hy

theorem recordsBelow_node_lt (cond : α → α → Comparison) (hst : StrictTotal cond) (k d : α)
    (h : Int) (l r : AVLNode α) (hord : Ordered cond (node d h l r))
    (hc : cond k d = LESS_THAN) :
    recordsBelow cond k (toList (node d h l r)) = recordsBelow cond k (toList l) := by
  rw [ordered_node_iff] at hord
  obtain ⟨_, _, _, hrd, _⟩ := hord
  have hr := recordsBelow_eq_nil cond k (toList r) (fun y hy => by
    rw [hst.gt_of_lt (hst.key_lt (hrd y hy) (by rw [hc]; decide))]; decide)
  simp only [recordsBelow] at hr ⊢
  simp [toList, List.filter_append, List.filter_cons, hst.gt_of_lt hc, hr]

theorem recordsBelow_node_gt (cond : α → α → Comparison) (hst : StrictTotal cond) (k d : α)
    (h : Int) (l r : AVLNode α) (hord : Ordered cond (node d h l r))
    (hc : cond k d = GREATER_THAN) :
    recordsBelow cond k (toList (node d h l r)) =
      toList l ++ d :: recordsBelow cond k (toList r) := by
  rw [ordered_node_iff] at hord
  obtain ⟨_, _, hld, _, _⟩ := hord
  have hl := recordsBelow_eq_self cond k (toList l) (fun y hy =>
    hst.lt_of_gt (hst.key_gt (hld y hy) (by rw [hc]; decide)))
  simp only [recordsBelow] at hl ⊢
  simp [toList, List.filter_append, List.filter_cons, hst.lt_of_gt hc, hl]

theorem recordsBelow_node_eq (cond : α → α → Comparison) (hst : StrictTotal cond) (k d : α)
    (h : Int) (l r : AVLNode α) (hord : Ordered cond (node d h l r))
    (hc : cond k d = EQUAL) :
    recordsBelow cond k (toList (node d h l r)) = toList l := by
  rw [ordered_node_iff] at hord
  obtain ⟨_, _, hld, hrd, _⟩ := hord
  have hl := recordsBelow_eq_self cond k (toList l) (fun y hy =>
    hst.lt_of_gt (hst.key_gt (hld y hy) (by rw [hc]; decide)))
  have hr := recordsBelow_eq_nil cond k (toList r) (fun y hy => by
    rw [hst.gt_of_lt (hst.key_lt (hrd y hy) (by rw [hc]; decide))]; decide)
  simp only [recordsBelow] at hl hr ⊢
  simp [toList, List.filter_append, List.filter_cons, hst.equal_symm hc, hl, hr]

/-- When the node holding the key has no left child, the first ancestor below the key
holds the last of the records below the key. -/
theorem firstSmaller_ancestors (cond : α → α → Comparison) (hst : StrictTotal cond) (k : α) :
    ∀ (T : AVLNode α), Ordered cond T → ∀ (qd : α) (qh : Int) (qr : AVLNode α),
      search_node cond T k = node qd qh nil qr →
      data? (firstSmaller cond k (ancestors cond T k)) =
        (recordsBelow cond k (toList T)).getLast?
  | nil, _, qd, qh, qr, hs => by simp [search_node] at hs
  | node d h l r, hord, qd, qh, qr, hs => by
      have hord2 := hord
      rw [ordered_node_iff] at hord2
      obtain ⟨ol, or_, hld, hrd, hlr⟩ := hord2
      cases hc : cond k d with
      | EQUAL =>
        simp only [search_node, hc] at hs
        injection hs with _ _ e3 _
        subst e3
        rw [recordsBelow_node_eq cond hst k d h nil r hord hc,
          ancestors_eq cond k d h nil r hc]
        simp [firstSmaller, data?, toList]
      | LESS_THAN =>
        simp only [search_node, hc] at hs
        have ih := firstSmaller_ancestors cond hst k l ol qd qh qr hs
        rw [recordsBelow_node_lt cond hst k d h l r hord hc, ancestors_lt cond k d h l r hc,
          ← ih]
        cases hf : firstSmaller cond k (ancestors cond l k) with
        | nil =>
          rw [firstSmaller_append_of_nil cond k _ _ hf]
          simp [firstSmaller, hc, data?]
        | node d1 h1 l1 r1 =>
          rw [firstSmaller_append_of_node cond k _ _ d1 h1 l1 r1 hf]
      | GREATER_THAN =>
        simp only [search_node, hc] at hs
        have ih := firstSmaller_ancestors cond hst k r or_ qd qh qr hs
        rw [recordsBelow_node_gt cond hst k d h l r hord hc, ancestors_gt cond k d h l r hc]
        cases hf : firstSmaller cond k (ancestors cond r k) with
        | nil =>
          rw [hf] at ih
          simp only [data?] at ih
          rw [firstSmaller_append_of_nil cond k _ _ hf]
          have : recordsBelow cond k (toList r) = [] := by
            rw [← List.getLast?_eq_none_iff]; exact ih.symm
          rw [this]
          simp [firstSmaller, hc, data?]
        | node d1 h1 l1 r1 =>
          rw [hf] at ih
          simp only [data?] at ih
          rw [firstSmaller_append_of_node cond k _ _ d1 h1 l1 r1 hf]
          obtain ⟨ys, hys⟩ := List.getLast?_eq_some_iff.1 ih.symm
          rw [hys, show toList l ++ d :: (ys ++ [d1]) = (toList l ++ d :: ys) ++ [d1] by simp,
            List.getLast?_concat]
          rfl

/-- When the node holding the key has a left child, the rightmost node of that child
holds the last of the records below the key. -/
theorem max_of_left (cond : α → α → Comparison) (hst : StrictTotal cond) (k : α) :
    ∀ (T : AVLNode α), Ordered cond T → ∀ (qd : α) (qh : Int) (qr : AVLNode α)
      (ld : α) (lh : Int) (ll lr : AVLNode α),
      search_node cond T k = node qd qh (node ld lh ll lr) qr →
      data? (get_max_node_by_root (node ld lh ll lr)) =
        (recordsBelow cond k (toList T)).getLast?
  | nil, _, qd, qh, qr, ld, lh, ll, lr, hs => by simp [search_node] at hs
  | node d h l r, hord, qd, qh, qr, ld, lh, ll, lr, hs => by
      have hord2 := hord
      rw [ordered_node_iff] at hord2
      obtain ⟨ol, or_, hld, hrd, hlr⟩ := hord2
      obtain ⟨sd, sh, sl, init, hmax, hinit⟩ := get_max_node_by_root_spec lr ld lh ll
      cases hc : cond k d with
      | EQUAL =>
        simp only [search_node, hc] at hs
        injection hs with _ _ e3 _
        subst e3
        rw [recordsBelow_node_eq cond hst k d h _ r hord hc, hmax, hinit]
        simp [data?]
      | LESS_THAN =>
        simp only [search_node, hc] at hs
        rw [recordsBelow_node_lt cond hst k d h l r hord hc]
        exact max_of_left cond hst k l ol qd qh qr ld lh ll lr hs
      | GREATER_THAN =>
        simp only [search_node, hc] at hs
        have ih := max_of_left cond hst k r or_ qd qh qr ld lh ll lr hs
        rw [recordsBelow_node_gt cond hst k d h l r hord hc]
        rw [hmax] at ih ⊢
        simp only [data?] at ih ⊢
        obtain ⟨ys, hys⟩ := List.getLast?_eq_some_iff.1 ih.symm
        rw [hys, show toList l ++ d :: (ys ++ [sd]) = (toList l ++ d :: ys) ++ [sd] by simp,
          List.getLast?_concat]

theorem data?_eq_some : ∀ (s : AVLNode α) (p : α), data? s = some p →
    ∃ h l r, s = node p h l r
  | nil, p, h => by simp [data?] at h
  | node d hh l r, p, h => by
      simp only [data?, Option.some.injEq] at h
      subst h
      exact ⟨hh, l, r, rfl⟩

theorem data?_eq_none : ∀ (s : AVLNode α), data? s = none → s = nil
  | nil, _ => rfl
  | node d hh l r, h => by simp [data?] at h

/-- `get_closest_left` on a key that is present: it returns within `size + 1` loop
iterations, and the returned pointer holds the last record below the key, if any. -/
theorem get_closest_left_found [DecidableEq α] (cond : α → α → Comparison)
    (hst : StrictTotal cond) (t : AVLTree α) (hord : Ordered cond t.root) (k : α)
    (qd : α) (qh : Int) (ql qr : AVLNode α)
    (hs : search_node cond t.root k = node qd qh ql qr) :
    ∃ res, (∀ fuel, size t.root < fuel → get_closest_left cond fuel t k = some res) ∧
      data? res = (recordsBelow cond k (toList t.root)).getLast? := by
  obtain ⟨hmem, heq⟩ := search_node_sound cond k t.root qd qh ql qr hs
  cases ql with
  | nil =>
    refine ⟨firstSmaller cond k (ancestors cond t.root k), ?_,
      firstSmaller_ancestors cond hst k t.root hord qd qh qr hs⟩
    intro fuel hf
    simp only [get_closest_left, search, hs, Option.bind_eq_bind]
    rw [get_father_root cond hst t.root hord qd hmem,
      ← ancestors_congr cond hst k qd heq t.root]
    simp only [Option.some_bind]
    exact closest_left_loop_spec cond hst t.root hord k _ [] rfl fuel
      (lt_of_le_of_lt (ancestors_length cond k t.root) hf)
  | node ld lh ll lr =>
    refine ⟨get_max_node_by_root (node ld lh ll lr), ?_,
      max_of_left cond hst k t.root hord qd qh qr ld lh ll lr hs⟩
    intro fuel _
    simp only [get_closest_left, search, hs]

/-- The last record below the key in a strictly increasing sequence is the greatest
record below the key. -/
theorem recordsBelow_getLast?_greatest (cond : α → α → Comparison) (k : α) (xs : List α)
    (hinc : StrictlyIncreasing cond xs) (p : α)
    (hp : (recordsBelow cond k xs).getLast? = some p) :
    ∀ y ∈ xs, cond y k = LESS_THAN → y = p ∨ cond y p = LESS_THAN := by
  intro y hy hlt
  obtain ⟨ys, hys⟩ := List.getLast?_eq_some_iff.1 hp
  have hsorted : StrictlyIncreasing cond (recordsBelow cond k xs) :=
    strictlyIncreasing_filter cond _ xs hinc
  have hmem : y ∈ recordsBelow cond k xs := by
    simp only [recordsBelow, List.mem_filter, decide_eq_true_eq]
    exact ⟨hy, hlt⟩
  rw [hys] at hsorted hmem
  simp only [StrictlyIncreasing, List.pairwise_append, List.mem_singleton] at hsorted
  simp only [List.mem_append, List.mem_singleton] at hmem
  rcases hmem with h | h
  · exact Or.inr (hsorted.2.2 y h p rfl)
  · exact Or.inl h


theorem update_height_shape (d : α) (h : Int) (l r : AVLNode α) :
    ∃ h1, update_height (node d h l r) = some (node d h1 l r) := by
  cases l <;> cases r <;> simp only [update_height]
  · exact ⟨_, rfl⟩
  · exact ⟨_, rfl⟩
  · exact ⟨_, rfl⟩
  · split_ifs
    · exact ⟨_, rfl⟩
    · exact ⟨_, rfl⟩

theorem make_LL_rotation_defined (d : α) (h : Int) (ad : α) (ah : Int) (al ar r : AVLNode α) :
    ∃ h1 h2, make_LL_rotation (node d h (node ad ah al ar) r) =
      some (node ad h2 al (node d h1 ar r)) := by
  obtain ⟨h1, e1⟩ := update_height_shape d h ar r
  obtain ⟨h2, e2⟩ := update_height_shape ad ah al (node d h1 ar r)
  exact ⟨h1, h2, by simp only [make_LL_rotation, e1, Option.bind_eq_bind, Option.some_bind, e2]⟩

theorem make_RR_rotation_defined (d : α) (h : Int) (ad : α) (ah : Int) (l al ar : AVLNode α) :
    ∃ h1 h2, make_RR_rotation (node d h l (node ad ah al ar)) =
      some (node ad h2 (node d h1 l al) ar) := by
  obtain ⟨h1, e1⟩ := update_height_shape d h l al
  obtain ⟨h2, e2⟩ := update_height_shape ad ah (node d h1 l al) ar
  exact ⟨h1, h2, by simp only [make_RR_rotation, e1, Option.bind_eq_bind, Option.some_bind, e2]⟩

theorem make_LL_rotation_toList (t t1 : AVLNode α) (he : make_LL_rotation t = some t1) :
    toList t1 = toList t := by
  cases t with
  | nil => simp [make_LL_rotation] at he
  | node d h l r =>
    cases l with
    | nil => simp [make_LL_rotation] at he
    | node ad ah al ar =>
      obtain ⟨h1, h2, e⟩ := make_LL_rotation_defined d h ad ah al ar r
      rw [e] at he
      injection he with he
      subst he
      simp [toList]

theorem make_RR_rotation_toList (t t1 : AVLNode α) (he : make_RR_rotation t = some t1) :
    toList t1 = toList t := by
  cases t with
  | nil => simp [make_RR_rotation] at he
  | node d h l r =>
    cases r with
    | nil => simp [make_RR_rotation] at he
    | node ad ah al ar =>
      obtain ⟨h1, h2, e⟩ := make_RR_rotation_defined d h ad ah l al ar
      rw [e] at he
      injection he with he
      subst he
      simp [toList]

theorem make_LR_rotation_toList (t t1 : AVLNode α) (he : make_LR_rotation t = some t1) :
    toList t1 = toList t := by
  cases t with
  | nil => simp [make_LR_rotation] at he
  | node d h l r =>
    simp only [make_LR_rotation, Option.bind_eq_bind] at he
    cases e1 : make_RR_rotation l with
    | none => simp [e1] at he
    | some l1 =>
      obtain ⟨h1, e2⟩ := update_height_shape d h l1 r
      simp only [e1, Option.some_bind, e2] at he
      rw [make_LL_rotation_toList _ _ he]
      simp [toList, make_RR_rotation_toList _ _ e1]

theorem make_RL_rotation_toList (t t1 : AVLNode α) (he : make_RL_rotation t = some t1) :
    toList t1 = toList t := by
  cases t with
  | nil => simp [make_RL_rotation] at he
  | node d h l r =>
    simp only [make_RL_rotation, Option.bind_eq_bind] at he
    cases e1 : make_LL_rotation r with
    | none => simp [e1] at he
    | some r1 =>
      obtain ⟨h1, e2⟩ := update_height_shape d h l r1
      simp only [e1, Option.some_bind, e2] at he
      rw [make_RR_rotation_toList _ _ he]
      simp [toList, make_LL_rotation_toList _ _ e1]

theorem make_LR_rotation_defined (d : α) (h : Int) (ad : α) (ah : Int) (al : AVLNode α)
    (bd : α) (bh : Int) (bl br r : AVLNode α) :
    ∃ h1 h2 h3, make_LR_rotation (node d h (node ad ah al (node bd bh bl br)) r) =
      some (node bd h3 (node ad h1 al bl) (node d h2 br r)) := by
  obtain ⟨h1, h2, e1⟩ := make_RR_rotation_defined ad ah bd bh al bl br
  obtain ⟨h3, e2⟩ := update_height_shape d h (node bd h2 (node ad h1 al bl) br) r
  obtain ⟨h4, h5, e3⟩ := make_LL_rotation_defined d h3 bd h2 (node ad h1 al bl) br r
  exact ⟨h1, h4, h5, by
    simp only [make_LR_rotation, e1, Option.bind_eq_bind, Option.some_bind, e2, e3]⟩

theorem make_RL_rotation_defined (d : α) (h : Int) (l : AVLNode α) (ad : α) (ah : Int)
    (bd : α) (bh : Int) (bl br ar : AVLNode α) :
    ∃ h1 h2 h3, make_RL_rotation (node d h l (node ad ah (node bd bh bl br) ar)) =
      some (node bd h3 (node d h2 l bl) (node ad h1 br ar)) := by
  obtain ⟨h1, h2, e1⟩ := make_LL_rotation_defined ad ah bd bh bl br ar
  obtain ⟨h3, e2⟩ := update_height_shape d h l (node bd h2 bl (node ad h1 br ar))
  obtain ⟨h4, h5, e3⟩ := make_RR_rotation_defined d h3 bd h2 l bl (node ad h1 br ar)
  exact ⟨h1, h4, h5, by
    simp only [make_RL_rotation, e1, Option.bind_eq_bind, Option.some_bind, e2, e3]⟩

theorem balance_tree_toList (t t1 : AVLNode α) (he : balance_tree t = some t1) :
    toList t1 = toList t := by
  cases t with
  | nil => simp [balance_tree] at he
  | node d h l r =>
    simp only [balance_tree, get_bf_node, Option.bind_eq_bind, Option.some_bind] at he
    split_ifs at he with h1 h2
    · cases hb : get_bf l with
      | none => simp [hb] at he
      | some b =>
        simp only [hb, Option.some_bind] at he
        split_ifs at he
        · exact make_LL_rotation_toList _ _ he
        · exact make_LR_rotation_toList _ _ he
    · cases hb : get_bf r with
      | none => simp [hb] at he
      | some b =>
        simp only [hb, Option.some_bind] at he
        split_ifs at he
        · exact make_RR_rotation_toList _ _ he
        · exact make_RL_rotation_toList _ _ he
    · injection he with he
      rw [← he]

/-- A node whose balance factor is out of range on the left has a left child. -/
theorem get_bf_left_of_heavy (l r : AVLNode α) (hr : HeightsOk r)
    (h2 : height l - height r = 2) : get_bf l = some (balance_factor l) := by
  cases l with
  | nil =>
    have := height_ge_of_heightsOk r hr
    simp at h2; omega
  | node ad ah al ar => rw [get_bf_node]; rfl

/-- A node whose balance factor is out of range on the right has a right child. -/
theorem get_bf_right_of_heavy (l r : AVLNode α) (hl : HeightsOk l)
    (h2 : height l - height r = -2) : get_bf r = some (balance_factor r) := by
  cases r with
  | nil =>
    have := height_ge_of_heightsOk l hl
    simp at h2; omega
  | node ad ah al ar => rw [get_bf_node]; rfl

/-- Finishing step shared by the recursive cases of `remove_node`: the new slot value and
`*result` do not depend on the list of destroyed records. -/
theorem remove_node_finish_indep (n : AVLNode α) (res : Bool) (des1 des2 : List α) :
    Option.map (fun p : AVLNode α × Bool × List α => (p.1, p.2.1))
      ((update_height n).bind fun r1 => (balance_tree r1).bind fun r2 =>
        some (r2, res, des1)) =
    Option.map (fun p : AVLNode α × Bool × List α => (p.1, p.2.1))
      ((update_height n).bind fun r1 => (balance_tree r1).bind fun r2 =>
        some (r2, res, des2)) := by
  cases update_height n with
  | none => rfl
  | some r1 =>
    cases hb : balance_tree r1 with
    | none => simp [hb]
    | some r2 => simp [hb]

/-- One step of `remove_node` at a node with two children whose record is `EQUAL` to the
key. -/
theorem remove_node_two_children (cond : α → α → Comparison) (d : α) (h : Int)
    (ld : α) (lh : Int) (ll lr : AVLNode α) (rd : α) (rh : Int) (rl rr : AVLNode α)
    (k : α) (res erase : Bool) (des : List α) (hc : cond k d = EQUAL)
    (sd : α) (sh : Int) (sl sr : AVLNode α)
    (hm : get_max_node_by_root (node ld lh ll lr) = node sd sh sl sr) :
    remove_node cond (node d h (node ld lh ll lr) (node rd rh rl rr)) k res erase des =
      (remove_node cond (node ld lh ll lr) sd res false
        (if erase = true then des ++ [d] else des)).bind fun p =>
        (update_height (node sd h p.1 (node rd rh rl rr))).bind fun r1 =>
          (balance_tree r1).bind fun r2 => some (r2, true, p.2.2) := by
  rw [remove_node]
  simp only [hc, find_successor, hm, Option.bind_eq_bind]

theorem remove_node_two_children_nil (cond : α → α → Comparison) (d : α) (h : Int)
    (ld : α) (lh : Int) (ll lr : AVLNode α) (rd : α) (rh : Int) (rl rr : AVLNode α)
    (k : α) (res erase : Bool) (des : List α) (hc : cond k d = EQUAL)
    (hm : get_max_node_by_root (node ld lh ll lr) = nil) :
    remove_node cond (node d h (node ld lh ll lr) (node rd rh rl rr)) k res erase des =
      none := by
  rw [remove_node]
  simp only [hc, find_successor, hm]

/-- The slot value and `*result` computed by `remove_node` do not depend on `erase` nor
on the records destroyed so far. -/
theorem remove_node_erase_indep (cond : α → α → Comparison) :
    ∀ (t : AVLNode α) (k : α) (res e1 e2 : Bool) (des1 des2 : List α),
      Option.map (fun p : AVLNode α × Bool × List α => (p.1, p.2.1))
          (remove_node cond t k res e1 des1) =
        Option.map (fun p : AVLNode α × Bool × List α => (p.1, p.2.1))
          (remove_node cond t k res e2 des2)
  | nil, k, res, e1, e2, des1, des2 => by simp [remove_node]
  | node d h l r, k, res, e1, e2, des1, des2 => by
      cases hc : cond k d with
      | LESS_THAN =>
        have ih := remove_node_erase_indep cond l k res e1 e2 des1 des2
        simp only [remove_node, hc, Option.bind_eq_bind]
        cases h1 : remove_node cond l k res e1 des1 with
        | none =>
          cases h2 : remove_node cond l k res e2 des2 with
          | none => rfl
          | some p2 => simp [h1, h2] at ih
        | some p1 =>
          cases h2 : remove_node cond l k res e2 des2 with
          | none => simp [h1, h2] at ih
          | some p2 =>
            obtain ⟨a1, b1, c1⟩ := p1
            obtain ⟨a2, b2, c2⟩ := p2
            simp only [h1, h2, Option.map_some', Option.some.injEq, Prod.mk.injEq] at ih
            obtain ⟨ea, eb⟩ := ih
            subst ea eb
            simp only [Option.some_bind]
            exact remove_node_finish_indep _ _ _ _
      | GREATER_THAN =>
        have ih := remove_node_erase_indep cond r k res e1 e2 des1 des2
        simp only [remove_node, hc, Option.bind_eq_bind]
        cases h1 : remove_node cond r k res e1 des1 with
        | none =>
          cases h2 : remove_node cond r k res e2 des2 with
          | none => rfl
          | some p2 => simp [h1, h2] at ih
        | some p1 =>
          cases h2 : remove_node cond r k res e2 des2 with
          | none => simp [h1, h2] at ih
          | some p2 =>
            obtain ⟨a1, b1, c1⟩ := p1
            obtain ⟨a2, b2, c2⟩ := p2
            simp only [h1, h2, Option.map_some', Option.some.injEq, Prod.mk.injEq] at ih
            obtain ⟨ea, eb⟩ := ih
            subst ea eb
            simp only [Option.some_bind]
            exact remove_node_finish_indep _ _ _ _
      | EQUAL =>
        cases l with
        | nil => cases r <;> simp [remove_node, hc]
        | node ld lh ll lr =>
          cases r with
          | nil => simp [remove_node, hc]
          | node rd rh rl rr =>
            cases hm : get_max_node_by_root (node ld lh ll lr) with
            | nil =>
              rw [remove_node_two_children_nil cond d h ld lh ll lr rd rh rl rr k res e1 des1
                hc hm, remove_node_two_children_nil cond d h ld lh ll lr rd rh rl rr k res e2
                des2 hc hm]
            | node sd sh sl sr =>
              rw [remove_node_two_children cond d h ld lh ll lr rd rh rl rr k res e1 des1
                hc sd sh sl sr hm, remove_node_two_children cond d h ld lh ll lr rd rh rl rr
                k res e2 des2 hc sd sh sl sr hm]
              have ih := remove_node_erase_indep cond (node ld lh ll lr) sd res false false
                (if e1 = true then des1 ++ [d] else des1)
                (if e2 = true then des2 ++ [d] else des2)
              cases h1 : remove_node cond (node ld lh ll lr) sd res false
                  (if e1 = true then des1 ++ [d] else des1) with
              | none =>
                cases h2 : remove_node cond (node ld lh ll lr) sd res false
                    (if e2 = true then des2 ++ [d] else des2) with
                | none => rfl
                | some p2 => simp [h1, h2] at ih
              | some p1 =>
                cases h2 : remove_node cond (node ld lh ll lr) sd res false
                    (if e2 = true then des2 ++ [d] else des2) with
                | none => simp [h1, h2] at ih
                | some p2 =>
                  obtain ⟨a1, b1, c1⟩ := p1
                  obtain ⟨a2, b2, c2⟩ := p2
                  simp only [h1, h2, Option.map_some', Option.some.injEq, Prod.mk.injEq] at ih
                  obtain ⟨ea, eb⟩ := ih
                  subst ea
                  simp only [Option.some_bind]
                  exact remove_node_finish_indep _ _ _ _

/-- Outside the precondition of `build_from_array` (sorted array without duplicates):
`build_from_array([5,4,3,10,11])` followed by `remove(3)` on the empty tree. The root 3
has two children, the rightmost record 4 of its left subtree is not reached by the
descent, `remove` returns `true` without removing a node, and the counter becomes 4
while 5 nodes are reachable. -/
theorem count_unsorted_array :
    applyOps natCond [Op.build_from_array [5, 4, 3, 10, 11], Op.remove 3] AVLTree.empty =
      some ⟨node 4 2 (node 5 1 nil (node 4 0 nil nil)) (node 10 1 nil (node 11 0 nil nil)), 4⟩ ∧
    get_num_of_nodes (⟨node 4 2 (node 5 1 nil (node 4 0 nil nil))
      (node 10 1 nil (node 11 0 nil nil)), 4⟩ : AVLTree Nat) = 4 ∧
    size (node 4 2 (node 5 1 nil (node 4 0 nil nil)) (node 10 1 nil (node 11 0 nil nil))) = 5 ∧
    ¬ (∀ ops : List (Op Nat), ∀ t, applyOps natCond ops AVLTree.empty = some t →
      get_num_of_nodes t = size t.root) := by
  have h1 : applyOps natCond [Op.build_from_array [5, 4, 3, 10, 11], Op.remove 3]
      AVLTree.empty = some ⟨node 4 2 (node 5 1 nil (node 4 0 nil nil))
        (node 10 1 nil (node 11 0 nil nil)), 4⟩ := by decide
  refine ⟨h1, by decide, by decide, ?_⟩
  intro hall
  exact absurd (hall _ _ h1) (by decide)

theorem get_min_node_by_root_spec : ∀ (l : AVLNode α) (d : α) (h : Int) (r : AVLNode α),
    ∃ sd sh sr rest, get_min_node_by_root (node d h l r) = node sd sh nil sr ∧
      toList (node d h l r) = sd :: rest
  | nil, d, h, r => ⟨d, h, r, toList r, rfl, by simp [toList]⟩
  | node ld lh ll lr, d, h, r => by
      obtain ⟨sd, sh, sr, rest, he, hl⟩ := get_min_node_by_root_spec ll ld lh lr
      refine ⟨sd, sh, sr, rest ++ d :: toList r, ?_, ?_⟩
      · simp only [get_min_node_by_root]; exact he
      · simp only [toList] at hl ⊢
        rw [hl]; simp

/-- The `while` loop of `get_closest_right`, started at an ancestor of the node that
holds the key, ends within as many iterations as there are ancestors left and returns
the first of them whose record is above the key. -/
theorem closest_right_loop_spec [DecidableEq α] (cond : α → α → Comparison)
    (hst : StrictTotal cond) (T : AVLNode α) (hord : Ordered cond T) (k : α) :
    ∀ (B A : List (AVLNode α)), A ++ B = ancestors cond T k →
      ∀ fuel, B.length < fuel →
        closest_right_loop cond T k fuel (B.headD nil) = some (firstLarger cond k B)
  | [], _, _, fuel, hf => by
      cases fuel with
      | zero => simp at hf
      | succ n => simp [closest_right_loop, firstLarger]
  | f :: B, A, hsplit, fuel, hf => by
      cases fuel with
      | zero => simp at hf
      | succ n =>
        obtain ⟨fd, fh, fl, fr, e, hm, hne⟩ :=
          ancestors_mem cond k T f (by rw [← hsplit]; simp)
        subst e
        have hsuf := ancestors_suffix cond hst k T hord A B fd fh fl fr hsplit
        have ih := closest_right_loop_spec cond hst T hord k B (A ++ [node fd fh fl fr])
          (by rw [← hsplit]; simp) n (by simpa using hf)
        simp only [List.headD_cons]
        cases hc : cond k fd with
        | EQUAL => exact absurd hc hne
        | LESS_THAN => simp [closest_right_loop, firstLarger, hc]
        | GREATER_THAN =>
          simp only [closest_right_loop, firstLarger, hc, Option.bind_eq_bind]
          rw [get_father_root cond hst T hord fd hm, hsuf]
          simp only [Option.some_bind]
          exact ih

theorem firstLarger_append_of_nil (cond : α → α → Comparison) (k : α) :
    ∀ (A B : List (AVLNode α)), firstLarger cond k A = nil →
      firstLarger cond k (A ++ B) = firstLarger cond k B
  | [], B, _ => rfl
  | nil :: A, B, h => by
      simp only [firstLarger, List.cons_append] at h ⊢
      exact firstLarger_append_of_nil cond k A B h
  | node d hh l r :: A, B, h => by
      cases hc : cond k d with
      | LESS_THAN => simp [firstLarger, hc] at h
      | GREATER_THAN =>
        simp only [firstLarger, hc, List.cons_append] at h ⊢
        exact firstLarger_append_of_nil cond k A B h
      | EQUAL =>
        simp only [firstLarger, hc, List.cons_append] at h ⊢
        exact firstLarger_append_of_nil cond k A B h

theorem firstLarger_append_of_node (cond : α → α → Comparison) (k : α) :
    ∀ (A B : List (AVLNode α)) (d : α) (h : Int) (l r : AVLNode α),
      firstLarger cond k A = node d h l r →
      firstLarger cond k (A ++ B) = node d h l r
  | [], B, d, h, l, r, hf => by simp [firstLarger] at hf
  | nil :: A, B, d, h, l, r, hf => by
      simp only [firstLarger, List.cons_append] at hf ⊢
      exact firstLarger_append_of_node cond k A B d h l r hf
  | node d0 h0 l0 r0 :: A, B, d, h, l, r, hf => by
      cases hc : cond k d0 with
      | LESS_THAN => simpa [firstLarger, hc] using hf
      | GREATER_THAN =>
        simp only [firstLarger, hc, List.cons_append] at hf ⊢
        exact firstLarger_append_of_node cond k A B d h l r hf
      | EQUAL =>
        simp only [firstLarger, hc, List.cons_append] at hf ⊢
        exact firstLarger_append_of_node cond k A B d h l r hf

theorem recordsAbove_eq_nil (cond : α → α → Comparison) (k : α) (xs : List α)
    (h : ∀ y ∈ xs, cond y k ≠ GREATER_THAN) : recordsAbove cond k xs = [] := by
  simp only [recordsAbove, List.filter_eq_nil_iff]
  intro y hy
  simpa using h y hy

theorem recordsAbove_eq_self (cond : α → α → Comparison) (k : α) (xs : List α)
    (h : ∀ y ∈ xs, cond y k = GREATER_THAN) : recordsAbove cond k xs = xs := by
  simp only [recordsAbove, List.filter_eq_self]
  intro y hy
  simpa using h y hy

theorem recordsAbove_node_gt (cond : α → α → Comparison) (hst : StrictTotal cond) (k d : α)
    (h : Int) (l r : AVLNode α) (hord : Ordered cond (node d h l r))
    (hc : cond k d = GREATER_THAN) :
    recordsAbove cond k (toList (node d h l r)) = recordsAbove cond k (toList r) := by
  rw [ordered_node_iff] at hord
  obtain ⟨_, _, hld, _, _⟩ := hord
  have hl := recordsAbove_eq_nil cond k (toList l) (fun y hy => by
    rw [hst.lt_of_gt (hst.key_gt (hld y hy) (by rw [hc]; decide))]; decide)
  simp only [recordsAbove] at hl ⊢
  simp [toList, List.filter_append, List.filter_cons, hst.lt_of_gt hc, hl]

theorem recordsAbove_node_lt (cond : α → α → Comparison) (hst : StrictTotal cond) (k d : α)
    (h : Int) (l r : AVLNode α) (hord : Ordered cond (node d h l r))
    (hc : cond k d = LESS_THAN) :
    recordsAbove cond k (toList (node d h l r)) =
      recordsAbove cond k (toList l) ++ d :: toList r := by
  rw [ordered_node_iff] at hord
  obtain ⟨_, _, _, hrd, _⟩ := hord
  have hr := recordsAbove_eq_self cond k (toList r) (fun y hy =>
    hst.gt_of_lt (hst.key_lt (hrd y hy) (by rw [hc]; decide)))
  simp only [recordsAbove] at hr ⊢
  simp [toList, List.filter_append, List.filter_cons, hst.gt_of_lt hc, hr]

theorem recordsAbove_node_eq (cond : α → α → Comparison) (hst : StrictTotal cond) (k d : α)
    (h : Int) (l r : AVLNode α) (hord : Ordered cond (node d h l r))
    (hc : cond k d = EQUAL) :
    recordsAbove cond k (toList (node d h l r)) = toList r := by
  rw [ordered_node_iff] at hord
  obtain ⟨_, _, hld, hrd, _⟩ := hord
  have hl := recordsAbove_eq_nil cond k (toList l) (fun y hy => by
    rw [hst.lt_of_gt (hst.key_gt (hld y hy) (by rw [hc]; decide))]; decide)
  have hr := recordsAbove_eq_self cond k (toList r) (fun y hy =>
    hst.gt_of_lt (hst.key_lt (hrd y hy) (by rw [hc]; decide)))
  simp only [recordsAbove] at hl hr ⊢
  simp [toList, List.filter_append, List.filter_cons, hst.equal_symm hc, hl, hr]

/-- When the node holding the key has no right child, the first ancestor above the key
holds the first of the records above the key. -/
theorem firstLarger_ancestors (cond : α → α → Comparison) (hst : StrictTotal cond) (k : α) :
    ∀ (T : AVLNode α), Ordered cond T → ∀ (qd : α) (qh : Int) (ql : AVLNode α),
      search_node cond T k = node qd qh ql nil →
      data? (firstLarger cond k (ancestors cond T k)) =
        (recordsAbove cond k (toList T)).head?
  | nil, _, qd, qh, ql, hs => by simp [search_node] at hs
  | node d h l r, hord, qd, qh, ql, hs => by
      have hord2 := hord
      rw [ordered_node_iff] at hord2
      obtain ⟨ol, or_, hld, hrd, hlr⟩ := hord2
      cases hc : cond k d with
      | EQUAL =>
        simp only [search_node, hc] at hs
        injection hs with _ _ _ e4
        subst e4
        rw [recordsAbove_node_eq cond hst k d h l nil hord hc,
          ancestors_eq cond k d h l nil hc]
        simp [firstLarger, data?, toList]
      | GREATER_THAN =>
        simp only [search_node, hc] at hs
        have ih := firstLarger_ancestors cond hst k r or_ qd qh ql hs
        rw [recordsAbove_node_gt cond hst k d h l r hord hc, ancestors_gt cond k d h l r hc,
          ← ih]
        cases hf : firstLarger cond k (ancestors cond r k) with
        | nil =>
          rw [firstLarger_append_of_nil cond k _ _ hf]
          simp [firstLarger, hc, data?]
        | node d1 h1 l1 r1 =>
          rw [firstLarger_append_of_node cond k _ _ d1 h1 l1 r1 hf]
      | LESS_THAN =>
        simp only [search_node, hc] at hs
        have ih := firstLarger_ancestors cond hst k l ol qd qh ql hs
        rw [recordsAbove_node_lt cond hst k d h l r hord hc, ancestors_lt cond k d h l r hc]
        cases hf : firstLarger cond k (ancestors cond l k) with
        | nil =>
          rw [hf] at ih
          simp only [data?] at ih
          rw [firstLarger_append_of_nil cond k _ _ hf]
          have : recordsAbove cond k (toList l) = [] := by
            rw [← List.head?_eq_none_iff]; exact ih.symm
          rw [this]
          simp [firstLarger, hc, data?]
        | node d1 h1 l1 r1 =>
          rw [hf] at ih
          simp only [data?] at ih
          rw [firstLarger_append_of_node cond k _ _ d1 h1 l1 r1 hf]
          cases hra : recordsAbove cond k (toList l) with
          | nil => rw [hra] at ih; simp at ih
          | cons y ys =>
            rw [hra] at ih
            simp only [List.head?_cons, Option.some.injEq] at ih
            simp [data?, ih]

/-- When the node holding the key has a right child, the leftmost node of that child
holds the first of the records above the key. -/
theorem min_of_right (cond : α → α → Comparison) (hst : StrictTotal cond) (k : α) :
    ∀ (T : AVLNode α), Ordered cond T → ∀ (qd : α) (qh : Int) (ql : AVLNode α)
      (rd : α) (rh : Int) (rl rr : AVLNode α),
      search_node cond T k = node qd qh ql (node rd rh rl rr) →
      data? (get_min_node_by_root (node rd rh rl rr)) =
        (recordsAbove cond k (toList T)).head?
  | nil, _, qd, qh, ql, rd, rh, rl, rr, hs => by simp [search_node] at hs
  | node d h l r, hord, qd, qh, ql, rd, rh, rl, rr, hs => by
      have hord2 := hord
      rw [ordered_node_iff] at hord2
      obtain ⟨ol, or_, hld, hrd, hlr⟩ := hord2
      obtain ⟨sd, sh, sr, rest, hmin, hrest⟩ := get_min_node_by_root_spec rl rd rh rr
      cases hc : cond k d with
      | EQUAL =>
        simp only [search_node, hc] at hs
        injection hs with _ _ _ e4
        subst e4
        rw [recordsAbove_node_eq cond hst k d h l _ hord hc, hmin, hrest]
        simp [data?]
      | GREATER_THAN =>
        simp only [search_node, hc] at hs
        rw [recordsAbove_node_gt cond hst k d h l r hord hc]
        exact min_of_right cond hst k r or_ qd qh ql rd rh rl rr hs
      | LESS_THAN =>
        simp only [search_node, hc] at hs
        have ih := min_of_right cond hst k l ol qd qh ql rd rh rl rr hs
        rw [recordsAbove_node_lt cond hst k d h l r hord hc]
        rw [hmin] at ih ⊢
        simp only [data?] at ih ⊢
        cases hra : recordsAbove cond k (toList l) with
        | nil => rw [hra] at ih; simp at ih
        | cons y ys =>
          rw [hra] at ih
          simp only [List.head?_cons, Option.some.injEq] at ih
          simp [ih]

/-- `get_closest_right` on a key that is present: it returns within `size + 1` loop
iterations, and the returned pointer holds the first record above the key, if any. -/
theorem get_closest_right_found [DecidableEq α] (cond : α → α → Comparison)
    (hst : StrictTotal cond) (t : AVLTree α) (hord : Ordered cond t.root) (k : α)
    (qd : α) (qh : Int) (ql qr : AVLNode α)
    (hs : search_node cond t.root k = node qd qh ql qr) :
    ∃ res, (∀ fuel, size t.root < fuel → get_closest_right cond fuel t k = some res) ∧
      data? res = (recordsAbove cond k (toList t.root)).head? := by
  obtain ⟨hmem, heq⟩ := search_node_sound cond k t.root qd qh ql qr hs
  cases qr with
  | nil =>
    refine ⟨firstLarger cond k (ancestors cond t.root k), ?_,
      firstLarger_ancestors cond hst k t.root hord qd qh ql hs⟩
    intro fuel hf
    simp only [get_closest_right, search, hs, Option.bind_eq_bind]
    rw [get_father_root cond hst t.root hord qd hmem,
      ← ancestors_congr cond hst k qd heq t.root]
    simp only [Option.some_bind]
    exact closest_right_loop_spec cond hst t.root hord k _ [] rfl fuel
      (lt_of_le_of_lt (ancestors_length cond k t.root) hf)
  | node rd rh rl rr =>
    refine ⟨get_min_node_by_root (node rd rh rl rr), ?_,
      min_of_right cond hst k t.root hord qd qh ql rd rh rl rr hs⟩
    intro fuel _
    simp only [get_closest_right, search, hs]

/-- The first record above the key in a strictly increasing sequence is the smallest
record above the key. -/
theorem recordsAbove_head?_least (cond : α → α → Comparison) (k : α) (xs : List α)
    (hinc : StrictlyIncreasing cond xs) (p : α)
    (hp : (recordsAbove cond k xs).head? = some p) :
    ∀ y ∈ xs, cond y k = GREATER_THAN → y = p ∨ cond p y = LESS_THAN := by
  intro y hy hgt
  have hsorted : StrictlyIncreasing cond (recordsAbove cond k xs) :=
    strictlyIncreasing_filter cond _ xs hinc
  have hmem : y ∈ recordsAbove cond k xs := by
    simp only [recordsAbove, List.mem_filter, decide_eq_true_eq]
    exact ⟨hy, hgt⟩
  cases hra : recordsAbove cond k xs with
  | nil => rw [hra] at hp; simp at hp
  | cons z zs =>
    rw [hra] at hp hsorted hmem
    simp only [List.head?_cons, Option.some.injEq] at hp
    subst hp
    simp only [StrictlyIncreasing, List.pairwise_cons] at hsorted
    simp only [List.mem_cons] at hmem
    rcases hmem with h | h
    · exact Or.inl h
    · exact Or.inr (hsorted.1 y h)

theorem erase_data_in_node_eq : ∀ (t : AVLNode α) (destroyed : List α),
    erase_data_in_node t destroyed = (zeroHeights t, destroyed ++ postorder t)
  | nil, destroyed => by simp [erase_data_in_node, zeroHeights, postorder]
  | node d h l r, destroyed => by
      simp [erase_data_in_node, zeroHeights, postorder, erase_data_in_node_eq l,
        erase_data_in_node_eq r]

theorem toList_zeroHeights : ∀ (t : AVLNode α), toList (zeroHeights t) = toList t
  | nil => rfl
  | node d h l r => by simp [zeroHeights, toList, toList_zeroHeights l, toList_zeroHeights r]

theorem size_zeroHeights : ∀ (t : AVLNode α), size (zeroHeights t) = size t
  | nil => rfl
  | node d h l r => by simp [zeroHeights, size, size_zeroHeights l, size_zeroHeights r]

theorem postorder_perm : ∀ (t : AVLNode α), List.Perm (postorder t) (toList t)
  | nil => List.Perm.refl _
  | node d h l r => by
      simp only [postorder, toList]
      have h1 := postorder_perm l
      have h2 := postorder_perm r
      refine (List.Perm.append_right [d] (List.Perm.append h1 h2)).trans ?_
      rw [List.append_assoc]
      exact List.Perm.append_left _ (List.perm_append_singleton d (toList r))

theorem height_zeroHeights (t : AVLNode α) (hne : t ≠ nil) : height (zeroHeights t) = 0 := by
  cases t with
  | nil => exact absurd rfl hne
  | node d h l r => rfl

theorem heightsOk_zeroHeights_iff (t : AVLNode α) :
    HeightsOk (zeroHeights t) ↔ size t ≤ 1 := by
  cases t with
  | nil => simp [zeroHeights, HeightsOk, size]
  | node d h l r =>
    cases l with
    | nil =>
      cases r with
      | nil => simp [zeroHeights, HeightsOk, size]
      | node d2 h2 l2 r2 =>
        simp only [zeroHeights, HeightsOk, size, height_node, height_nil]
        constructor
        · rintro ⟨h1, _⟩; omega
        · intro h1; omega
    | node d1 h1 l1 r1 =>
      simp only [zeroHeights, HeightsOk, size, height_node]
      constructor
      · rintro ⟨h2, _⟩
        have := le_max_left (0 : Int) (height (zeroHeights r))
        omega
      · intro h2; omega

/-- The balance factor read by the fixup at a node whose children have correct cached
heights. -/
theorem fixup_bf_node (d : α) (h : Int) (l r : AVLNode α) (hl : HeightsOk l)
    (hr : HeightsOk r) : fixup_bf (node d h l r) = some (height l - height r) := by
  unfold fixup_bf
  rw [update_height_node d h l r (height_ge_of_heightsOk l hl) (height_ge_of_heightsOk r hr)]
  simp only [Option.some_bind, get_bf_node]

theorem insert_fixup_bfs_bound (cond : α → α → Comparison) (x : α) :
    ∀ (t j : AVLNode α) (n : Int), HeightsOk t → Balanced t →
      ∀ e ∈ insert_fixup_bfs cond t x j n, ∃ bf, e = some bf ∧ -2 ≤ bf ∧ bf ≤ 2
  | nil, j, n, _, _, e, he => by simp [insert_fixup_bfs] at he
  | node d h l r, j, n, hok, hbal, e, he => by
      obtain ⟨hh, hl, hr⟩ := hok
      obtain ⟨hb, bl, br⟩ := hbal
      simp only [balance_factor] at hb
      rw [insert_fixup_bfs] at he
      cases hc : cond x d with
      | EQUAL => simp [hc] at he
      | LESS_THAN =>
        simp only [hc, List.mem_append, List.mem_singleton] at he
        rcases he with he | he
        · exact insert_fixup_bfs_bound cond x l j n hl bl e he
        · obtain ⟨l1, j1, n1, hi, hl1, _, hh1, _⟩ := insert_node_spec cond x l j n hl bl
          rw [he, hi, Option.some_bind, fixup_bf_node d h l1 r hl1 hr]
          exact ⟨_, rfl, by omega, by omega⟩
      | GREATER_THAN =>
        simp only [hc, List.mem_append, List.mem_singleton] at he
        rcases he with he | he
        · exact insert_fixup_bfs_bound cond x r j n hr br e he
        · obtain ⟨r1, j1, n1, hi, hr1, _, hh1, _⟩ := insert_node_spec cond x r j n hr br
          rw [he, hi, Option.some_bind, fixup_bf_node d h l r1 hl hr1]
          exact ⟨_, rfl, by omega, by omega⟩

theorem remove_fixup_bfs_bound (cond : α → α → Comparison) :
    ∀ (t : AVLNode α) (k : α) (res erase : Bool) (des : List α), HeightsOk t → Balanced t →
      ∀ e ∈ remove_fixup_bfs cond t k res erase des, ∃ bf, e = some bf ∧ -2 ≤ bf ∧ bf ≤ 2
  | nil, k, res, erase, des, _, _, e, he => by simp [remove_fixup_bfs] at he
  | node d h l r, k, res, erase, des, hok, hbal, e, he => by
      obtain ⟨hh, hl, hr⟩ := hok
      obtain ⟨hb, bl, br⟩ := hbal
      simp only [balance_factor] at hb
      rw [remove_fixup_bfs] at he
      cases hc : cond k d with
      | LESS_THAN =>
        simp only [hc, List.mem_append, List.mem_singleton] at he
        rcases he with he | he
        · exact remove_fixup_bfs_bound cond l k res erase des hl bl e he
        · obtain ⟨l1, res1, des1, hi, hl1, _, hh1, _⟩ :=
            remove_node_spec cond l k res erase des hl bl
          rw [he, hi, Option.some_bind, fixup_bf_node d h l1 r hl1 hr]
          exact ⟨_, rfl, by omega, by omega⟩
      | GREATER_THAN =>
        simp only [hc, List.mem_append, List.mem_singleton] at he
        rcases he with he | he
        · exact remove_fixup_bfs_bound cond r k res erase des hr br e he
        · obtain ⟨r1, res1, des1, hi, hr1, _, hh1, _⟩ :=
            remove_node_spec cond r k res erase des hr br
          rw [he, hi, Option.some_bind, fixup_bf_node d h l r1 hl hr1]
          exact ⟨_, rfl, by omega, by omega⟩
      | EQUAL =>
        cases l with
        | nil => cases r <;> simp [hc] at he
        | node ld lh ll lr =>
          cases r with
          | nil => simp [hc] at he
          | node rd rh rl rr =>
            obtain ⟨sd, sh, sl, init, hmax, _⟩ := get_max_node_by_root_spec lr ld lh ll
            simp only [hc, find_successor, hmax, List.mem_append, List.mem_singleton] at he
            rcases he with he | he
            · exact remove_fixup_bfs_bound cond (node ld lh ll lr) sd res false _ hl bl e he
            · obtain ⟨l1, res1, des1, hi, hl1, _, hh1, _⟩ :=
                remove_node_spec cond (node ld lh ll lr) sd res false
                  (if erase = true then des ++ [d] else des) hl bl
              rw [he, hi, Option.some_bind, fixup_bf_node sd h l1 _ hl1 hr]
              exact ⟨_, rfl, by omega, by omega⟩

end Lemmas

/-! ## The claims -/

section Claims

variable {α : Type}

/-- C1: `insert` preserves the AVL invariant. For every comparator (the order laws are not
even needed), every tree in which each node's cached height equals
`1 + max(height(left), height(right))` (absent child = -1) and each node's balance factor
is in `{-1,0,1}`, and every record `x`, `insert(x)` returns and the resulting tree again
has a correct cached height and a balance factor in `{-1,0,1}` at every node. -/
theorem insert_preserves_avl_invariant (cond : α → α → Comparison) (t : AVLTree α) (x : α)
    (hh : HeightsOk t.root) (hb : Balanced t.root) :
    ∃ t1 j, insert cond t x = some (t1, j) ∧ HeightsOk t1.root ∧ Balanced t1.root := by
  obtain ⟨r1, j1, n1, he, hh1, hb1, _⟩ :=
    insert_node_spec cond x t.root nil t.num_of_nodes hh hb
  exact ⟨⟨r1, n1⟩, j1, by simp [insert, he], hh1, hb1⟩

/-- Instance of C1: inserting 2 into the tree holding 1 and 3 (an LR rotation). -/
theorem insert_preserves_avl_invariant_witness :
    HeightsOk sampleSmall.root ∧ Balanced sampleSmall.root ∧
    ∃ t1 j, insert natCond sampleSmall 2 = some (t1, j) ∧ HeightsOk t1.root ∧
      Balanced t1.root :=
  ⟨by decide, by decide,
    insert_preserves_avl_invariant natCond sampleSmall 2 (by decide) (by decide)⟩

/-- C2: `remove` preserves the AVL invariant. For every comparator and every tree whose
cached heights are all correct and whose balance factors are all in `{-1,0,1}` (in
particular for every strict total order and binary-search-ordered tree), and every key
`k`, present or absent, `remove(k)` returns and the resulting tree again has, at every
node, cached height `1 + max` of the children's heights (absent = -1) and balance factor
in `{-1,0,1}`. -/
theorem remove_preserves_avl_invariant (cond : α → α → Comparison) (t : AVLTree α) (k : α)
    (hh : HeightsOk t.root) (hb : Balanced t.root) :
    ∃ t1 b, remove cond t k = some (t1, b) ∧ HeightsOk t1.root ∧ Balanced t1.root := by
  obtain ⟨r1, res1, des1, he, hh1, hb1, _⟩ :=
    remove_node_spec cond t.root k false false [] hh hb
  exact ⟨⟨r1, if res1 = true then t.num_of_nodes - 1 else t.num_of_nodes⟩, res1,
    by simp [remove, he], hh1, hb1⟩

/-- Instance of C2: removing the two-children root 5 of an eight-node tree. -/
theorem remove_preserves_avl_invariant_witness :
    HeightsOk sampleEight.root ∧ Balanced sampleEight.root ∧
    ∃ t1 b, remove natCond sampleEight 5 = some (t1, b) ∧ HeightsOk t1.root ∧
      Balanced t1.root :=
  ⟨by decide, by decide,
    remove_preserves_avl_invariant natCond sampleEight 5 (by decide) (by decide)⟩

/-- Every public mutating call keeps a well-formed tree well-formed. -/
theorem applyCalls_wellFormed (cond : α → α → Comparison) (hst : StrictTotal cond) :
    ∀ (cs : List (Call α)) (t : AVLTree α), WellFormed cond t.root →
      ∃ t1, applyCalls cond cs t = some t1 ∧ WellFormed cond t1.root
  | [], t, hwf => ⟨t, rfl, hwf⟩
  | Call.insert x :: cs, t, hwf => by
      obtain ⟨t1, j, he, hwf1, _⟩ := insert_spec cond hst t x hwf
      obtain ⟨t2, he2, hwf2⟩ := applyCalls_wellFormed cond hst cs t1 hwf1
      exact ⟨t2, by simp [applyCalls, applyCall, he, he2], hwf2⟩
  | Call.remove k :: cs, t, hwf => by
      obtain ⟨t1, b, he, hwf1, _⟩ := remove_spec cond hst t k hwf
      obtain ⟨t2, he2, hwf2⟩ := applyCalls_wellFormed cond hst cs t1 hwf1
      exact ⟨t2, by simp [applyCalls, applyCall, he, he2], hwf2⟩

/-- C3: order preservation. For every strict-total-order comparator and every finite
sequence of `insert` and `remove` calls applied to an initially empty tree, all calls
return and the in-order traversal (`inorder`) of the resulting tree is strictly increasing
under the comparator; in particular no two stored records compare `EQUAL`. -/
theorem inorder_strictly_increasing (cond : α → α → Comparison) (hst : StrictTotal cond)
    (cs : List (Call α)) :
    ∃ t, applyCalls cond cs AVLTree.empty = some t ∧
      StrictlyIncreasing cond (snapshot t) ∧
      (snapshot t).Pairwise (fun a b => cond a b ≠ EQUAL ∧ cond b a ≠ EQUAL) := by
  obtain ⟨t, he, hwf⟩ := applyCalls_wellFormed cond hst cs AVLTree.empty (wellFormed_empty cond)
  refine ⟨t, he, ?_, ?_⟩
  · rw [snapshot_eq]; exact hwf.1
  · rw [snapshot_eq]
    refine List.Pairwise.imp ?_ hwf.1
    intro a b hab
    rw [hab, hst.gt_of_lt hab]
    exact ⟨by decide, by decide⟩

/-- Instance of C3: a mixed sequence of inserts and removes over the natural numbers. -/
theorem inorder_strictly_increasing_witness :
    ∃ t, applyCalls natCond
        [Call.insert 4, Call.insert 2, Call.insert 4, Call.insert 6, Call.remove 4,
          Call.insert 1, Call.remove 7] AVLTree.empty = some t ∧
      StrictlyIncreasing natCond (snapshot t) ∧
      (snapshot t).Pairwise (fun a b => natCond a b ≠ EQUAL ∧ natCond b a ≠ EQUAL) :=
  inorder_strictly_increasing natCond natCond_strictTotal _

/-- C4: `remove` of a present key. For every well-formed tree (strictly increasing
in-order, correct cached heights, balance factors in `{-1,0,1}`) and every key `k` for
which the stored record `x` compares `EQUAL`, `remove(k)` returns `true`, the in-order
sequence of the resulting tree is the previous in-order sequence with that one record
deleted (all other records kept, in the same order), and the node count drops by exactly
one (both the counter `num_of_nodes` and the number of nodes of the tree). -/
theorem remove_present (cond : α → α → Comparison) (hst : StrictTotal cond) (t : AVLTree α)
    (hwf : WellFormed cond t.root) (k x : α) (hx : x ∈ snapshot t)
    (he : cond k x = EQUAL) :
    ∃ t1, remove cond t k = some (t1, true) ∧
      t1.num_of_nodes = t.num_of_nodes - 1 ∧ size t1.root + 1 = size t.root ∧
      ∃ l1 l2, snapshot t = l1 ++ x :: l2 ∧ snapshot t1 = l1 ++ l2 := by
  rw [snapshot_eq] at hx
  obtain ⟨t1, b, hr, _, hlist, _, hfound⟩ := remove_spec cond hst t k hwf
  obtain ⟨h, l, r, hs⟩ := search_node_complete cond hst k t.root hwf.1 x hx he
  obtain ⟨hb, hn⟩ := hfound (by rw [hs]; exact fun hc => AVLNode.noConfusion hc)
  subst hb
  obtain ⟨l1, l2, hsplit⟩ := List.append_of_mem hx
  have hnew : toList t1.root = l1 ++ l2 := by
    rw [hlist, hsplit]
    apply filter_equal_split cond hst k x l1 l2 _ he
    rw [← hsplit]; exact hwf.1
  refine ⟨t1, hr, hn, ?_, l1, l2, by rw [snapshot_eq, hsplit], by rw [snapshot_eq, hnew]⟩
  rw [← length_toList, ← length_toList, hnew, hsplit]
  simp only [List.length_append, List.length_cons]
  omega

/-- Instance of C4: removing the two-children root 5 of an eight-node tree. -/
theorem remove_present_witness :
    WellFormed natCond sampleEight.root ∧ 5 ∈ snapshot sampleEight ∧ natCond 5 5 = EQUAL ∧
    ∃ t1, remove natCond sampleEight 5 = some (t1, true) ∧
      t1.num_of_nodes = sampleEight.num_of_nodes - 1 ∧
      size t1.root + 1 = size sampleEight.root ∧
      ∃ l1 l2, snapshot sampleEight = l1 ++ 5 :: l2 ∧ snapshot t1 = l1 ++ l2 :=
  ⟨by decide, by decide, by decide,
    remove_present natCond natCond_strictTotal sampleEight (by decide) 5 5 (by decide)
      (by decide)⟩

/-- C5: `insert` of a new key. For every well-formed tree and every record `x` for which
no stored record compares `EQUAL`, `insert(x)` returns a non-null node whose data is `x`
(the node just created), the node count grows by exactly one (both the counter
`num_of_nodes` and the number of nodes of the tree), and the in-order sequence of the
resulting tree is the previous in-order sequence with `x` inserted at its sorted
position: after the records below `x` and before the records above `x`. -/
theorem insert_new (cond : α → α → Comparison) (hst : StrictTotal cond) (t : AVLTree α)
    (hwf : WellFormed cond t.root) (x : α) (hx : ∀ y ∈ snapshot t, cond x y ≠ EQUAL) :
    ∃ t1, insert cond t x = some (t1, node x 0 nil nil) ∧
      t1.num_of_nodes = t.num_of_nodes + 1 ∧ size t1.root = size t.root + 1 ∧
      ∃ l1 l2, snapshot t = l1 ++ l2 ∧ snapshot t1 = l1 ++ x :: l2 ∧
        (∀ a ∈ l1, cond a x = LESS_THAN) ∧ (∀ b ∈ l2, cond x b = LESS_THAN) := by
  rw [snapshot_eq] at hx
  have hs := (search_node_eq_nil_iff cond hst x t.root hwf.1).2 hx
  obtain ⟨t1, j, hi, _, _, hnew⟩ := insert_spec cond hst t x hwf
  obtain ⟨hj, hn, l1, l2, e1, e2, h1, h2⟩ := hnew hs
  subst hj
  refine ⟨t1, hi, hn, ?_, l1, l2, by rw [snapshot_eq, e1], by rw [snapshot_eq, e2], h1, h2⟩
  rw [← length_toList, ← length_toList, e1, e2]
  simp only [List.length_append, List.length_cons]
  omega

/-- Instance of C5: inserting 6 into an eight-node tree. -/
theorem insert_new_witness :
    WellFormed natCond sampleEight.root ∧ (∀ y ∈ snapshot sampleEight, natCond 6 y ≠ EQUAL) ∧
    ∃ t1, insert natCond sampleEight 6 = some (t1, node 6 0 nil nil) ∧
      t1.num_of_nodes = sampleEight.num_of_nodes + 1 ∧
      size t1.root = size sampleEight.root + 1 ∧
      ∃ l1 l2, snapshot sampleEight = l1 ++ l2 ∧ snapshot t1 = l1 ++ 6 :: l2 ∧
        (∀ a ∈ l1, natCond a 6 = LESS_THAN) ∧ (∀ b ∈ l2, natCond 6 b = LESS_THAN) :=
  ⟨by decide, by decide,
    insert_new natCond natCond_strictTotal sampleEight (by decide) 6 (by decide)⟩

/-- C6: a duplicate insert is a rejected no-op. For every well-formed tree and every
record `x` for which some stored record compares `EQUAL`, `insert(x)` returns the null
pointer and leaves the tree exactly unchanged: same shape, same record at every node,
same cached heights, same node count. -/
theorem insert_duplicate (cond : α → α → Comparison) (hst : StrictTotal cond) (t : AVLTree α)
    (hwf : WellFormed cond t.root) (x : α) (hx : ∃ y ∈ snapshot t, cond x y = EQUAL) :
    insert cond t x = some (t, nil) := by
  rw [snapshot_eq] at hx
  obtain ⟨y, hy, he⟩ := hx
  obtain ⟨h, l, r, hs⟩ := search_node_complete cond hst x t.root hwf.1 y hy he
  obtain ⟨t1, j, hi, _, hold, _⟩ := insert_spec cond hst t x hwf
  obtain ⟨e1, e2⟩ := hold (by rw [hs]; exact fun hc => AVLNode.noConfusion hc)
  rw [hi, e1, e2]

/-- Instance of C6: inserting 3 again into an eight-node tree that holds 3. -/
theorem insert_duplicate_witness :
    WellFormed natCond sampleEight.root ∧ (∃ y ∈ snapshot sampleEight, natCond 3 y = EQUAL) ∧
    insert natCond sampleEight 3 = some (sampleEight, nil) :=
  ⟨by decide, by decide,
    insert_duplicate natCond natCond_strictTotal sampleEight (by decide) 3 (by decide)⟩

/-- C7: `remove` of an absent key. For every well-formed tree and every key `k` for which
no stored record compares `EQUAL`, `remove(k)` returns `false` and leaves the tree exactly
unchanged: no structural change, no rotation, same cached heights at every node, same
node count. -/
theorem remove_absent (cond : α → α → Comparison) (hst : StrictTotal cond) (t : AVLTree α)
    (hwf : WellFormed cond t.root) (k : α) (hk : ∀ y ∈ snapshot t, cond k y ≠ EQUAL) :
    remove cond t k = some (t, false) := by
  rw [snapshot_eq] at hk
  have hs := (search_node_eq_nil_iff cond hst k t.root hwf.1).2 hk
  obtain ⟨t1, b, hr, _, _, habs, _⟩ := remove_spec cond hst t k hwf
  obtain ⟨e1, e2⟩ := habs hs
  rw [hr, e1, e2]

/-- Instance of C7: removing the absent key 6 from an eight-node tree. -/
theorem remove_absent_witness :
    WellFormed natCond sampleEight.root ∧ (∀ y ∈ snapshot sampleEight, natCond 6 y ≠ EQUAL) ∧
    remove natCond sampleEight 6 = some (sampleEight, false) :=
  ⟨by decide, by decide,
    remove_absent natCond natCond_strictTotal sampleEight (by decide) 6 (by decide)⟩

/-- Effect of one `insert` on the set of stored records. -/
theorem insert_members (cond : α → α → Comparison) (hst : StrictTotal cond) (t : AVLTree α)
    (x : α) (hwf : WellFormed cond t.root) :
    ∃ t1 j, insert cond t x = some (t1, j) ∧ WellFormed cond t1.root ∧
      (∀ y ∈ toList t1.root, y ∈ toList t.root ∨ y = x) ∧
      (∀ z ∈ toList t.root, z ∈ toList t1.root) ∧
      (∃ y ∈ toList t1.root, cond x y = EQUAL) := by
  obtain ⟨t1, j, hi, hwf1, hold, hnew⟩ := insert_spec cond hst t x hwf
  refine ⟨t1, j, hi, hwf1, ?_⟩
  cases hs : search_node cond t.root x with
  | nil =>
    obtain ⟨_, _, l1, l2, e1, e2, _, _⟩ := hnew hs
    rw [e1, e2]
    refine ⟨?_, ?_, x, by simp, hst.refl x⟩
    · intro y hy
      simp only [List.mem_append, List.mem_cons] at hy ⊢
      tauto
    · intro z hz
      simp only [List.mem_append, List.mem_cons] at hz ⊢
      tauto
  | node d h l r =>
    obtain ⟨e1, _⟩ := hold (by rw [hs]; exact fun hc => AVLNode.noConfusion hc)
    obtain ⟨hd, he⟩ := search_node_sound cond x t.root d h l r hs
    subst e1
    exact ⟨fun y hy => Or.inl hy, fun z hz => hz, d, hd, he⟩

/-- Inserting a list of records one by one: the calls return, the tree stays well-formed,
every stored record comes from the old tree or the list, and every record of the old
tree or the list has an `EQUAL` stored record. -/
theorem insertAll_members (cond : α → α → Comparison) (hst : StrictTotal cond) :
    ∀ (xs : List α) (t : AVLTree α), WellFormed cond t.root →
      ∃ t1, insertAll cond xs t = some t1 ∧ WellFormed cond t1.root ∧
        (∀ y ∈ toList t1.root, y ∈ toList t.root ∨ y ∈ xs) ∧
        (∀ z, z ∈ toList t.root ∨ z ∈ xs → ∃ y ∈ toList t1.root, cond z y = EQUAL)
  | [], t, hwf => ⟨t, rfl, hwf, fun y hy => Or.inl hy, fun z hz => by
      rcases hz with hz | hz
      · exact ⟨z, hz, hst.refl z⟩
      · simp at hz⟩
  | x :: xs, t, hwf => by
      obtain ⟨t1, j, hi, hwf1, hsub, hsup, y1, hy1, he1⟩ := insert_members cond hst t x hwf
      obtain ⟨t2, hi2, hwf2, hsub2, hsup2⟩ := insertAll_members cond hst xs t1 hwf1
      refine ⟨t2, by simp [insertAll, hi, hi2], hwf2, ?_, ?_⟩
      · intro y hy
        rcases hsub2 y hy with h | h
        · rcases hsub y h with h | h
          · exact Or.inl h
          · exact Or.inr (by simp [h])
        · exact Or.inr (by simp [h])
      · intro z hz
        rcases hz with hz | hz
        · exact hsup2 z (Or.inl (hsup z hz))
        · simp only [List.mem_cons] at hz
          rcases hz with rfl | hz
          · obtain ⟨y2, hy2, he2⟩ := hsup2 y1 (Or.inl hy1)
            exact ⟨y2, hy2, by rw [hst.equal_left z y1 y2 he1]; exact he2⟩
          · exact hsup2 z (Or.inr hz)

/-- C8: search correctness. For every strict-total-order comparator: (1) for every tree
whose in-order sequence is strictly increasing and every key `k`, `search(k)` returns a
node iff some stored record compares `EQUAL` to `k`, the returned node's record is that
`EQUAL` record, and otherwise it returns the null pointer; (2) after any sequence of
inserts into an empty tree, `search` finds every inserted key (returning a node whose
record compares `EQUAL` to it) and reports absent for every key to which no inserted
record compares `EQUAL`. -/
theorem search_correct (cond : α → α → Comparison) (hst : StrictTotal cond) :
    (∀ (t : AVLTree α) (k : α), StrictlyIncreasing cond (snapshot t) →
      (search cond t k ≠ nil ↔ ∃ y ∈ snapshot t, cond k y = EQUAL) ∧
      (∀ y ∈ snapshot t, cond k y = EQUAL → ∃ h l r, search cond t k = node y h l r) ∧
      ((∀ y ∈ snapshot t, cond k y ≠ EQUAL) → search cond t k = nil)) ∧
    (∀ (xs : List α), ∃ t, insertAll cond xs AVLTree.empty = some t ∧
      (∀ x ∈ xs, ∃ d h l r, search cond t x = node d h l r ∧ cond x d = EQUAL) ∧
      (∀ k, (∀ x ∈ xs, cond k x ≠ EQUAL) → search cond t k = nil)) := by
  constructor
  · intro t k hord
    rw [snapshot_eq] at hord ⊢
    have hnil := search_node_eq_nil_iff cond hst k t.root hord
    refine ⟨?_, ?_, ?_⟩
    · unfold search
      rw [Ne, hnil]
      push_neg
      rfl
    · intro y hy he
      exact search_node_complete cond hst k t.root hord y hy he
    · intro hall
      exact hnil.2 hall
  · intro xs
    obtain ⟨t, hi, hwf, hsub, hsup⟩ :=
      insertAll_members cond hst xs AVLTree.empty (wellFormed_empty cond)
    refine ⟨t, hi, ?_, ?_⟩
    · intro x hx
      obtain ⟨y, hy, he⟩ := hsup x (Or.inr hx)
      obtain ⟨h, l, r, hs⟩ := search_node_complete cond hst x t.root hwf.1 y hy he
      exact ⟨y, h, l, r, hs, he⟩
    · intro k hk
      apply (search_node_eq_nil_iff cond hst k t.root hwf.1).2
      intro y hy
      rcases hsub y hy with h | h
      · simp [AVLTree.empty, toList] at h
      · exact hk y h

/-- Instance of C8: searching 3 (present) and 6 (absent) in an eight-node tree, and a
sequence of inserts with a repeated record. -/
theorem search_correct_witness :
    StrictlyIncreasing natCond (snapshot sampleEight) ∧
    (∃ h l r, search natCond sampleEight 3 = node 3 h l r) ∧
    search natCond sampleEight 6 = nil ∧
    (∃ t, insertAll natCond [5, 2, 8, 2] AVLTree.empty = some t ∧
      (∀ x ∈ [5, 2, 8, 2], ∃ d h l r, search natCond t x = node d h l r ∧
        natCond x d = EQUAL) ∧
      (∀ k, (∀ x ∈ [5, 2, 8, 2], natCond k x ≠ EQUAL) → search natCond t k = nil)) :=
  ⟨by decide,
    ((search_correct natCond natCond_strictTotal).1 sampleEight 3 (by decide)).2.1 3
      (by decide) (by decide),
    ((search_correct natCond natCond_strictTotal).1 sampleEight 6 (by decide)).2.2
      (by decide),
    (search_correct natCond natCond_strictTotal).2 [5, 2, 8, 2]⟩

/-- Inserting pairwise non-`EQUAL` records that are new to a well-formed tree adds
exactly these records. -/
theorem insertAll_distinct (cond : α → α → Comparison) (hst : StrictTotal cond) :
    ∀ (xs : List α) (t : AVLTree α), WellFormed cond t.root →
      xs.Pairwise (fun a b => cond a b ≠ EQUAL) →
      (∀ x ∈ xs, ∀ y ∈ toList t.root, cond x y ≠ EQUAL) →
      ∃ t1, insertAll cond xs t = some t1 ∧ WellFormed cond t1.root ∧
        List.Perm (toList t1.root) (toList t.root ++ xs) ∧
        t1.num_of_nodes = t.num_of_nodes + xs.length
  | [], t, hwf, _, _ => ⟨t, rfl, hwf, by simp, by simp⟩
  | x :: xs, t, hwf, hp, hnew => by
      rw [List.pairwise_cons] at hp
      obtain ⟨hx, hp⟩ := hp
      have hs := (search_node_eq_nil_iff cond hst x t.root hwf.1).2
        (fun y hy => hnew x (by simp) y hy)
      obtain ⟨t1, j, hi, hwf1, _, hins⟩ := insert_spec cond hst t x hwf
      obtain ⟨_, hn, l1, l2, e1, e2, _, _⟩ := hins hs
      have hnew1 : ∀ x1 ∈ xs, ∀ y ∈ toList t1.root, cond x1 y ≠ EQUAL := by
        intro x1 hx1 y hy
        rw [e2] at hy
        simp only [List.mem_append, List.mem_cons] at hy
        have hold : y ∈ toList t.root → cond x1 y ≠ EQUAL :=
          fun h => hnew x1 (by simp [hx1]) y h
        rcases hy with hy | rfl | hy
        · exact hold (by rw [e1]; simp [hy])
        · exact fun hc => hx x1 hx1 (hst.equal_symm hc)
        · exact hold (by rw [e1]; simp [hy])
      obtain ⟨t2, hi2, hwf2, hperm, hn2⟩ := insertAll_distinct cond hst xs t1 hwf1 hp hnew1
      refine ⟨t2, by simp [insertAll, hi, hi2], hwf2, ?_, ?_⟩
      · refine hperm.trans ?_
        rw [e1, e2]
        simp only [List.append_assoc, List.cons_append]
        refine List.Perm.append_left l1 ?_
        exact (@List.perm_middle α x l2 xs).symm
      · rw [hn2, hn]; simp only [List.length_cons]; push_cast; ring

/-- Two strictly increasing sequences with the same records are the same sequence. -/
theorem strictlyIncreasing_perm_unique (cond : α → α → Comparison) (hst : StrictTotal cond)
    (xs ys : List α) (hp : List.Perm xs ys) (hx : StrictlyIncreasing cond xs)
    (hy : StrictlyIncreasing cond ys) : xs = ys := by
  haveI : IsAntisymm α (fun a b => cond a b = LESS_THAN) :=
    ⟨fun a b hab hba => by
      rw [hst.gt_of_lt hba] at hab
      exact Comparison.noConfusion hab⟩
  exact List.eq_of_perm_of_sorted hp hx hy

/-- C9: round trip. For every list of pairwise non-`EQUAL` records, in any order,
inserting them one by one into an empty tree succeeds and `inorder` then yields exactly
those records sorted increasingly by the comparator (a strictly increasing permutation of
the input, as many as the node count; an array unless the list is empty, where `inorder`
returns the null pointer), and any other insertion order of the same records yields the
same sequence. -/
theorem inorder_round_trip (cond : α → α → Comparison) (hst : StrictTotal cond)
    (xs : List α) (hne : xs.Pairwise (fun a b => cond a b ≠ EQUAL)) :
    ∃ t, insertAll cond xs AVLTree.empty = some t ∧
      List.Perm (snapshot t) xs ∧ StrictlyIncreasing cond (snapshot t) ∧
      t.num_of_nodes = xs.length ∧
      (xs ≠ [] → inorder t = some (snapshot t)) ∧
      (∀ ys, List.Perm ys xs →
        ∃ t2, insertAll cond ys AVLTree.empty = some t2 ∧ snapshot t2 = snapshot t) := by
  have key : ∀ zs : List α, zs.Pairwise (fun a b => cond a b ≠ EQUAL) →
      ∃ t, insertAll cond zs AVLTree.empty = some t ∧
        List.Perm (snapshot t) zs ∧ StrictlyIncreasing cond (snapshot t) ∧
        t.num_of_nodes = zs.length := by
    intro zs hz
    obtain ⟨t, hi, hwf, hperm, hn⟩ :=
      insertAll_distinct cond hst zs AVLTree.empty (wellFormed_empty cond) hz
        (by intro x _ y hy; simp [AVLTree.empty, toList] at hy)
    refine ⟨t, hi, ?_, ?_, ?_⟩
    · rw [snapshot_eq]; simpa [AVLTree.empty, toList] using hperm
    · rw [snapshot_eq]; exact hwf.1
    · simpa [AVLTree.empty] using hn
  obtain ⟨t, hi, hperm, hinc, hn⟩ := key xs hne
  refine ⟨t, hi, hperm, hinc, hn, ?_, ?_⟩
  · intro hxs
    have hsnap : snapshot t ≠ [] := fun hc => hxs (by rw [hc] at hperm; exact hperm.nil_eq.symm)
    unfold snapshot at hsnap ⊢
    cases hio : inorder t with
    | none => rw [hio] at hsnap; exact absurd rfl hsnap
    | some ys => rfl
  intro ys hys
  have hne2 : ys.Pairwise (fun a b => cond a b ≠ EQUAL) :=
    (List.Perm.pairwise_iff (fun {a b} (h : cond a b ≠ EQUAL) hc => h (hst.equal_symm hc))
      hys).2 hne
  obtain ⟨t2, hi2, hperm2, hinc2, _⟩ := key ys hne2
  exact ⟨t2, hi2, strictlyIncreasing_perm_unique cond hst _ _
    ((hperm2.trans hys).trans hperm.symm) hinc2 hinc⟩

/-- Instance of C9: inserting 5, 2, 8, 1, 3, 7, 9, 4 yields 1, 2, 3, 4, 5, 7, 8, 9. -/
theorem inorder_round_trip_witness :
    [5, 2, 8, 1, 3, 7, 9, 4].Pairwise (fun a b => natCond a b ≠ EQUAL) ∧
    (∃ t, insertAll natCond [5, 2, 8, 1, 3, 7, 9, 4] AVLTree.empty = some t ∧
      List.Perm (snapshot t) [5, 2, 8, 1, 3, 7, 9, 4] ∧
      StrictlyIncreasing natCond (snapshot t) ∧
      t.num_of_nodes = ([5, 2, 8, 1, 3, 7, 9, 4] : List Nat).length ∧
      (([5, 2, 8, 1, 3, 7, 9, 4] : List Nat) ≠ [] → inorder t = some (snapshot t)) ∧
      (∀ ys, List.Perm ys [5, 2, 8, 1, 3, 7, 9, 4] →
        ∃ t2, insertAll natCond ys AVLTree.empty = some t2 ∧ snapshot t2 = snapshot t)) ∧
    (insertAll natCond [5, 2, 8, 1, 3, 7, 9, 4] AVLTree.empty).map inorder =
      some (some [1, 2, 3, 4, 5, 7, 8, 9]) :=
  ⟨by decide,
    inorder_round_trip natCond natCond_strictTotal [5, 2, 8, 1, 3, 7, 9, 4] (by decide),
    by decide⟩

/-- C10: predecessor query. For every strict-total-order comparator, every tree whose
in-order sequence is strictly increasing (in particular every well-formed tree) and every
key `k`, `get_closest_left(k)` terminates (its loop ends within `size + 1` evaluations of
the loop condition) and returns one pointer `res` such that: when some stored record
compares `EQUAL` to `k` and `p` is the greatest stored record that is `LESS_THAN` `k`,
`res` is a node holding `p`; when `k` is present and no stored record is `LESS_THAN` `k`
(`k` is the minimum), `res` is null; and when no stored record compares `EQUAL` to `k`,
`res` is null. -/
theorem get_closest_left_correct [DecidableEq α] (cond : α → α → Comparison)
    (hst : StrictTotal cond) (t : AVLTree α) (hord : StrictlyIncreasing cond (snapshot t))
    (k : α) :
    ∃ res, (∀ fuel, size t.root < fuel → get_closest_left cond fuel t k = some res) ∧
      (∀ p ∈ snapshot t, (∃ x ∈ snapshot t, cond k x = EQUAL) → cond p k = LESS_THAN →
        (∀ y ∈ snapshot t, cond y k = LESS_THAN → y = p ∨ cond y p = LESS_THAN) →
        ∃ h l r, res = node p h l r) ∧
      ((∃ x ∈ snapshot t, cond k x = EQUAL) → (∀ y ∈ snapshot t, cond y k ≠ LESS_THAN) →
        res = nil) ∧
      ((∀ x ∈ snapshot t, cond k x ≠ EQUAL) → res = nil) := by
  rw [snapshot_eq] at hord ⊢
  cases hs : search_node cond t.root k with
  | nil =>
    have habs := (search_node_eq_nil_iff cond hst k t.root hord).1 hs
    refine ⟨nil, ?_, ?_, ?_, ?_⟩
    · intro fuel _
      simp only [get_closest_left, search, hs]
    · intro p _ hx
      obtain ⟨x, hx, he⟩ := hx
      exact absurd he (habs x hx)
    · intro _ _; rfl
    · intro _; rfl
  | node qd qh ql qr =>
    obtain ⟨hmem, heq⟩ := search_node_sound cond k t.root qd qh ql qr hs
    obtain ⟨res, hres, hdata⟩ := get_closest_left_found cond hst t hord k qd qh ql qr hs
    refine ⟨res, hres, ?_, ?_, ?_⟩
    · intro p hp _ hlt hgreatest
      cases hl : (recordsBelow cond k (toList t.root)).getLast? with
      | none =>
        rw [List.getLast?_eq_none_iff] at hl
        have : p ∈ recordsBelow cond k (toList t.root) := by
          simp only [recordsBelow, List.mem_filter, decide_eq_true_eq]
          exact ⟨hp, hlt⟩
        rw [hl] at this
        simp at this
      | some p2 =>
        have hp2 := List.mem_of_getLast?_eq_some hl
        simp only [recordsBelow, List.mem_filter, decide_eq_true_eq] at hp2
        have h1 := recordsBelow_getLast?_greatest cond k _ hord p2 hl p hp hlt
        have h2 := hgreatest p2 hp2.1 hp2.2
        have hpp : p2 = p := by
          rcases h1 with h1 | h1
          · exact h1.symm
          · rcases h2 with h2 | h2
            · exact h2
            · rw [hst.gt_of_lt h1] at h2
              exact Comparison.noConfusion h2
        subst hpp
        rw [hl] at hdata
        exact data?_eq_some res p2 hdata
    · intro _ hmin
      rw [recordsBelow_eq_nil cond k _ hmin] at hdata
      exact data?_eq_none res hdata
    · intro habs
      exact absurd heq (habs qd hmem)

/-- Instance of C10: in the tree built from 1, 3, 5, 7, 9 the predecessor of 5 is 3 and
the predecessor of 1 is absent. -/
theorem get_closest_left_correct_witness :
    insertAll natCond [1, 3, 5, 7, 9] AVLTree.empty = some sampleFive ∧
    StrictlyIncreasing natCond (snapshot sampleFive) ∧
    (∃ res, (∀ fuel, size sampleFive.root < fuel →
        get_closest_left natCond fuel sampleFive 5 = some res) ∧
      (∀ p ∈ snapshot sampleFive, (∃ x ∈ snapshot sampleFive, natCond 5 x = EQUAL) →
        natCond p 5 = LESS_THAN →
        (∀ y ∈ snapshot sampleFive, natCond y 5 = LESS_THAN →
          y = p ∨ natCond y p = LESS_THAN) →
        ∃ h l r, res = node p h l r) ∧
      ((∃ x ∈ snapshot sampleFive, natCond 5 x = EQUAL) →
        (∀ y ∈ snapshot sampleFive, natCond y 5 ≠ LESS_THAN) → res = nil) ∧
      ((∀ x ∈ snapshot sampleFive, natCond 5 x ≠ EQUAL) → res = nil)) ∧
    get_closest_left natCond 6 sampleFive 5 = some sampleFive.root ∧
    data? sampleFive.root = some 3 ∧
    get_closest_left natCond 6 sampleFive 1 = some nil :=
  ⟨by decide, by decide,
    get_closest_left_correct natCond natCond_strictTotal sampleFive (by decide) 5,
    by decide, by decide, by decide⟩

/-- C19: rotation selection restores balance. For every node whose cached height is
correct and whose left and right subtrees each satisfy the AVL invariant with correct
cached heights: if its balance factor is `+2` or `-2`, `balance_tree` returns (the child
and grandchild it rotates exist) a subtree in which every node has a correct cached
height and a balance factor in `{-1,0,1}`; it applies LL when `bf = 2` and
`bf(left) >= 0`, LR when `bf = 2` and `bf(left) < 0`, RR when `bf = -2` and
`bf(right) <= 0`, RL when `bf = -2` and `bf(right) > 0`; and a node with balance factor in
`{-1,0,1}` is returned unchanged. -/
theorem balance_tree_restores_balance (d : α) (h : Int) (l r : AVLNode α)
    (hl : HeightsOk l) (bl : Balanced l) (hr : HeightsOk r) (br : Balanced r)
    (hh : h = 1 + max (height l) (height r)) :
    (balance_factor (node d h l r) = 2 ∨ balance_factor (node d h l r) = -2 →
      ∃ t, balance_tree (node d h l r) = some t ∧ HeightsOk t ∧ Balanced t) ∧
    (balance_factor (node d h l r) = 2 → balance_factor l ≥ 0 →
      balance_tree (node d h l r) = make_LL_rotation (node d h l r)) ∧
    (balance_factor (node d h l r) = 2 → balance_factor l < 0 →
      balance_tree (node d h l r) = make_LR_rotation (node d h l r)) ∧
    (balance_factor (node d h l r) = -2 → balance_factor r ≤ 0 →
      balance_tree (node d h l r) = make_RR_rotation (node d h l r)) ∧
    (balance_factor (node d h l r) = -2 → balance_factor r > 0 →
      balance_tree (node d h l r) = make_RL_rotation (node d h l r)) ∧
    (balance_factor (node d h l r) = -1 ∨ balance_factor (node d h l r) = 0 ∨
      balance_factor (node d h l r) = 1 → balance_tree (node d h l r) = some (node d h l r)) := by
  have e : balance_factor (node d h l r) = height l - height r := rfl
  rw [e]
  refine ⟨?_, ?_, ?_, ?_, ?_, ?_⟩
  · intro hbf
    obtain ⟨t, he, hok, hbal, _⟩ := balance_tree_spec d h l r hl bl hr br hh (by omega)
    exact ⟨t, he, hok, hbal⟩
  · intro h2 hb
    simp only [balance_tree, get_bf_node, Option.bind_eq_bind, Option.some_bind,
      UNBALANCED_POSITIVE_BF, h2, if_true, get_bf_left_of_heavy l r hr h2]
    rw [if_pos hb]
  · intro h2 hb
    simp only [balance_tree, get_bf_node, Option.bind_eq_bind, Option.some_bind,
      UNBALANCED_POSITIVE_BF, h2, if_true, get_bf_left_of_heavy l r hr h2]
    rw [if_neg (by omega)]
  · intro h2 hb
    simp only [balance_tree, get_bf_node, Option.bind_eq_bind, Option.some_bind,
      UNBALANCED_POSITIVE_BF, UNBALANCED_NEGATIVE_BF, h2, get_bf_right_of_heavy l r hl h2]
    rw [if_neg (by decide), if_pos trivial, if_pos hb]
  · intro h2 hb
    simp only [balance_tree, get_bf_node, Option.bind_eq_bind, Option.some_bind,
      UNBALANCED_POSITIVE_BF, UNBALANCED_NEGATIVE_BF, h2, get_bf_right_of_heavy l r hl h2]
    rw [if_neg (by decide), if_pos trivial, if_neg (by omega)]
  · intro hbf
    simp only [balance_tree, get_bf_node, Option.bind_eq_bind, Option.some_bind,
      UNBALANCED_POSITIVE_BF, UNBALANCED_NEGATIVE_BF]
    rw [if_neg (by omega), if_neg (by omega)]

/-- Instance of C19: a node holding 3 whose left child 1 has the right child 2 (balance
factor 2, left balance factor -1) is rebalanced by an LR rotation. -/
theorem balance_tree_restores_balance_witness :
    (∃ t, balance_tree (node 3 2 (node 1 1 nil (node 2 0 nil nil)) nil) = some t ∧
      HeightsOk t ∧ Balanced t) ∧
    balance_tree (node 3 2 (node 1 1 nil (node 2 0 nil nil)) nil) =
      make_LR_rotation (node 3 2 (node 1 1 nil (node 2 0 nil nil)) nil) ∧
    balance_tree (node 3 2 (node 1 1 nil (node 2 0 nil nil)) nil) =
      some (node 2 1 (node 1 0 nil nil) (node 3 0 nil nil)) :=
  ⟨(balance_tree_restores_balance 3 2 (node 1 1 nil (node 2 0 nil nil)) nil (by decide)
      (by decide) (by decide) (by decide) (by decide)).1 (by decide),
    (balance_tree_restores_balance 3 2 (node 1 1 nil (node 2 0 nil nil)) nil (by decide)
      (by decide) (by decide) (by decide) (by decide)).2.2.1 (by decide) (by decide),
    by decide⟩

/-- C20: rotations preserve the in-order sequence. Each rotation is defined on every
subtree that has the nodes it moves (LL: left child; RR: right child; LR: left child and
its right child; RL: right child and its left child) and the in-order sequence of the
rotated subtree equals that of the original subtree; hence `balance_tree`, whenever it
returns, returns a subtree with the in-order sequence of the subtree it was applied to. -/
theorem rotations_preserve_inorder :
    (∀ (d : α) (h : Int) (ad : α) (ah : Int) (al ar r : AVLNode α),
      ∃ t1, make_LL_rotation (node d h (node ad ah al ar) r) = some t1 ∧
        toList t1 = toList (node d h (node ad ah al ar) r)) ∧
    (∀ (d : α) (h : Int) (l : AVLNode α) (ad : α) (ah : Int) (al ar : AVLNode α),
      ∃ t1, make_RR_rotation (node d h l (node ad ah al ar)) = some t1 ∧
        toList t1 = toList (node d h l (node ad ah al ar))) ∧
    (∀ (d : α) (h : Int) (ad : α) (ah : Int) (al : AVLNode α) (bd : α) (bh : Int)
      (bl br r : AVLNode α),
      ∃ t1, make_LR_rotation (node d h (node ad ah al (node bd bh bl br)) r) = some t1 ∧
        toList t1 = toList (node d h (node ad ah al (node bd bh bl br)) r)) ∧
    (∀ (d : α) (h : Int) (l : AVLNode α) (ad : α) (ah : Int) (bd : α) (bh : Int)
      (bl br ar : AVLNode α),
      ∃ t1, make_RL_rotation (node d h l (node ad ah (node bd bh bl br) ar)) = some t1 ∧
        toList t1 = toList (node d h l (node ad ah (node bd bh bl br) ar))) ∧
    (∀ (t t1 : AVLNode α), balance_tree t = some t1 → toList t1 = toList t) := by
  refine ⟨?_, ?_, ?_, ?_, balance_tree_toList⟩
  · intro d h ad ah al ar r
    obtain ⟨h1, h2, e⟩ := make_LL_rotation_defined d h ad ah al ar r
    exact ⟨_, e, make_LL_rotation_toList _ _ e⟩
  · intro d h l ad ah al ar
    obtain ⟨h1, h2, e⟩ := make_RR_rotation_defined d h ad ah l al ar
    exact ⟨_, e, make_RR_rotation_toList _ _ e⟩
  · intro d h ad ah al bd bh bl br r
    obtain ⟨h1, h2, h3, e⟩ := make_LR_rotation_defined d h ad ah al bd bh bl br r
    exact ⟨_, e, make_LR_rotation_toList _ _ e⟩
  · intro d h l ad ah bd bh bl br ar
    obtain ⟨h1, h2, h3, e⟩ := make_RL_rotation_defined d h l ad ah bd bh bl br ar
    exact ⟨_, e, make_RL_rotation_toList _ _ e⟩

/-- Instance of C20: the RL rotation selected by `balance_tree` on a right-heavy node
keeps the in-order sequence 1, 2, 3. -/
theorem rotations_preserve_inorder_witness :
    balance_tree (node 1 2 nil (node 3 1 (node 2 0 nil nil) nil)) =
      some (node 2 1 (node 1 0 nil nil) (node 3 0 nil nil)) ∧
    toList (node 2 1 (node 1 0 nil nil) (node 3 0 nil nil)) =
      toList (node 1 2 nil (node 3 1 (node 2 0 nil nil) nil)) :=
  ⟨by decide,
    (@rotations_preserve_inorder Nat).2.2.2.2 (node 1 2 nil (node 3 1 (node 2 0 nil nil) nil))
      (node 2 1 (node 1 0 nil nil) (node 3 0 nil nil)) (by decide)⟩

/-- C15 (the code at the failing input): `get_tree_height` on a tree holding exactly one
record. `insert(d)` on the empty tree yields a root leaf whose cached height is 0, and
`get_tree_height` then returns `EMPTY_TREE`, which is `-1`, not the height 0 of the tree. -/
theorem get_tree_height_single_record (cond : α → α → Comparison) (d : α) :
    insert cond AVLTree.empty d = some (⟨node d 0 nil nil, 1⟩, node d 0 nil nil) ∧
    height (node d 0 nil nil) = 0 ∧
    get_tree_height (⟨node d 0 nil nil, 1⟩ : AVLTree α) = some EMPTY_TREE ∧
    EMPTY_TREE = -1 := by
  refine ⟨?_, rfl, rfl, rfl⟩
  simp [insert, insert_node, AVLTree.empty]

/-- C16 (the code at the failing input): `get_tree_height` on the empty tree reads
`root->right` through the null `root`, so it has no defined result; it does not reach the
`return EMPTY_TREE`. -/
theorem get_tree_height_empty :
    (AVLTree.empty : AVLTree α).root = nil ∧
    get_tree_height (AVLTree.empty : AVLTree α) = none :=
  ⟨rfl, rfl⟩

/-- C18: idempotence boundary. For every well-formed tree and every key `k` present in it
(a stored record `x` compares `EQUAL`), `remove(k)` returns `true`, and a second
`remove(k)` on the resulting tree returns `false` and leaves that tree as the first call
left it. -/
theorem remove_twice (cond : α → α → Comparison) (hst : StrictTotal cond) (t : AVLTree α)
    (hwf : WellFormed cond t.root) (k x : α) (hx : x ∈ snapshot t)
    (he : cond k x = EQUAL) :
    ∃ t1, remove cond t k = some (t1, true) ∧ remove cond t1 k = some (t1, false) := by
  rw [snapshot_eq] at hx
  obtain ⟨t1, b, hr, hwf1, hlist, _, hfound⟩ := remove_spec cond hst t k hwf
  obtain ⟨h, l, r, hs⟩ := search_node_complete cond hst k t.root hwf.1 x hx he
  obtain ⟨hb, _⟩ := hfound (by rw [hs]; exact fun hc => AVLNode.noConfusion hc)
  subst hb
  refine ⟨t1, hr, ?_⟩
  have habs : search_node cond t1.root k = nil := by
    apply (search_node_eq_nil_iff cond hst k t1.root hwf1.1).2
    intro y hy
    rw [hlist] at hy
    simpa using (List.mem_filter.1 hy).2
  obtain ⟨t2, b2, hr2, _, _, hsame, _⟩ := remove_spec cond hst t1 k hwf1
  obtain ⟨e1, e2⟩ := hsame habs
  rw [hr2, e1, e2]

/-- Instance of C18: removing 5 twice from an eight-node tree. -/
theorem remove_twice_witness :
    WellFormed natCond sampleEight.root ∧ 5 ∈ snapshot sampleEight ∧ natCond 5 5 = EQUAL ∧
    ∃ t1, remove natCond sampleEight 5 = some (t1, true) ∧
      remove natCond t1 5 = some (t1, false) :=
  ⟨by decide, by decide, by decide,
    remove_twice natCond natCond_strictTotal sampleEight (by decide) 5 5 (by decide)
      (by decide)⟩

/-- C17: record ownership on removal. For every well-formed tree and key `k`:
`remove(k)` destroys no record; `remove_and_erase(k)` yields the same resulting tree and
return value as `remove(k)`; it destroys no record when it returns `false`, and when it
returns `true` it destroys exactly one record, the stored record that compared `EQUAL`
to `k`, which is no longer in the tree; so every record still in the tree afterwards
(in particular the predecessor's record moved into the surviving node in the two-children
case) is undestroyed. -/
theorem record_ownership (cond : α → α → Comparison) (hst : StrictTotal cond)
    (t : AVLTree α) (hwf : WellFormed cond t.root) (k : α) :
    ∃ t1 b destroyed, remove cond t k = some (t1, b) ∧
      remove_node cond t.root k false false [] = some (t1.root, b, []) ∧
      remove_and_erase cond t k = some (t1, b, destroyed) ∧
      (b = false → destroyed = []) ∧
      (b = true → ∃ x ∈ snapshot t, cond k x = EQUAL ∧ destroyed = [x] ∧ x ∉ snapshot t1) ∧
      (∀ y ∈ snapshot t1, y ∉ destroyed) := by
  obtain ⟨hord, hh, hb⟩ := hwf
  obtain ⟨r1, res1, des1, he, _, _, _, habs, hfound, hne, _, hlist⟩ :=
    remove_node_spec cond t.root k false false [] hh hb
  obtain ⟨r2, res2, des2, he2, _, _, _, habs2, _, _, her2, _⟩ :=
    remove_node_spec cond t.root k false true [] hh hb
  have hind := remove_node_erase_indep cond t.root k false false true [] []
  simp only [he, he2, Option.map_some', Option.some.injEq, Prod.mk.injEq] at hind
  obtain ⟨e1, e2⟩ := hind
  subst e1 e2
  have hd1 : des1 = [] := hne rfl
  subst hd1
  have hkeep : ∀ y ∈ toList r1, cond k y ≠ EQUAL := by
    intro y hy
    rw [hlist hst hord] at hy
    simpa using (List.mem_filter.1 hy).2
  have hdes : (search_node cond t.root k = nil → des2 = []) ∧
      (∀ d h l r, search_node cond t.root k = node d h l r → des2 = [d]) :=
    ⟨fun hs => (habs2 hs).2.2, fun d h l r hs => by simpa using her2 d h l r hs rfl⟩
  refine ⟨⟨r1, if res1 = true then t.num_of_nodes - 1 else t.num_of_nodes⟩, res1, des2,
    by simp [remove, he], he, by simp [remove_and_erase, he2], ?_, ?_, ?_⟩
  · intro hf
    cases hs : search_node cond t.root k with
    | nil => exact hdes.1 hs
    | node d h l r =>
      have := hfound (by rw [hs]; exact fun hc => AVLNode.noConfusion hc)
      rw [this] at hf
      exact Bool.noConfusion hf
  · intro ht
    cases hs : search_node cond t.root k with
    | nil =>
      have := (habs hs).2.1
      rw [this] at ht
      exact Bool.noConfusion ht
    | node d h l r =>
      obtain ⟨hm, heq⟩ := search_node_sound cond k t.root d h l r hs
      refine ⟨d, by rw [snapshot_eq]; exact hm, heq, hdes.2 d h l r hs, ?_⟩
      rw [snapshot_eq]
      exact fun hmem => hkeep d hmem heq
  · intro y hy
    rw [snapshot_eq] at hy
    cases hs : search_node cond t.root k with
    | nil => rw [hdes.1 hs]; simp
    | node d h l r =>
      obtain ⟨_, heq⟩ := search_node_sound cond k t.root d h l r hs
      rw [hdes.2 d h l r hs]
      simp only [List.mem_singleton]
      intro hyd
      subst hyd
      exact hkeep y hy heq

/-- Instance of C17: removing the two-children root 5 of an eight-node tree destroys
exactly the record 5 under `remove_and_erase` and nothing under `remove`; the predecessor
4, moved into the root, is not destroyed. -/
theorem record_ownership_witness :
    WellFormed natCond sampleEight.root ∧
    (∃ t1 b destroyed, remove natCond sampleEight 5 = some (t1, b) ∧
      remove_node natCond sampleEight.root 5 false false [] = some (t1.root, b, []) ∧
      remove_and_erase natCond sampleEight 5 = some (t1, b, destroyed) ∧
      (b = false → destroyed = []) ∧
      (b = true → ∃ x ∈ snapshot sampleEight, natCond 5 x = EQUAL ∧ destroyed = [x] ∧
        x ∉ snapshot t1) ∧
      (∀ y ∈ snapshot t1, y ∉ destroyed)) ∧
    (remove_and_erase natCond sampleEight 5).map (fun p => (data? p.1.root, p.2.2)) =
      some (some 4, [5]) :=
  ⟨by decide, record_ownership natCond natCond_strictTotal sampleEight (by decide) 5,
    by decide⟩

/-- C11: successor query. For every strict-total-order comparator, every tree whose
in-order sequence is strictly increasing (in particular every well-formed tree) and every
key `k`, `get_closest_right(k)` terminates (its loop ends within `size + 1` evaluations
of the loop condition) and returns one pointer `res` such that: when some stored record
compares `EQUAL` to `k` and `p` is the smallest stored record that is `GREATER_THAN` `k`,
`res` is a node holding `p`; when `k` is present and no stored record is `GREATER_THAN`
`k` (`k` is the maximum), `res` is null; and when no stored record compares `EQUAL` to
`k`, `res` is null. -/
theorem get_closest_right_correct [DecidableEq α] (cond : α → α → Comparison)
    (hst : StrictTotal cond) (t : AVLTree α) (hord : StrictlyIncreasing cond (snapshot t))
    (k : α) :
    ∃ res, (∀ fuel, size t.root < fuel → get_closest_right cond fuel t k = some res) ∧
      (∀ p ∈ snapshot t, (∃ x ∈ snapshot t, cond k x = EQUAL) → cond p k = GREATER_THAN →
        (∀ y ∈ snapshot t, cond y k = GREATER_THAN → y = p ∨ cond p y = LESS_THAN) →
        ∃ h l r, res = node p h l r) ∧
      ((∃ x ∈ snapshot t, cond k x = EQUAL) → (∀ y ∈ snapshot t, cond y k ≠ GREATER_THAN) →
        res = nil) ∧
      ((∀ x ∈ snapshot t, cond k x ≠ EQUAL) → res = nil) := by
  rw [snapshot_eq] at hord ⊢
  cases hs : search_node cond t.root k with
  | nil =>
    have habs := (search_node_eq_nil_iff cond hst k t.root hord).1 hs
    refine ⟨nil, ?_, ?_, ?_, ?_⟩
    · intro fuel _
      simp only [get_closest_right, search, hs]
    · intro p _ hx
      obtain ⟨x, hx, he⟩ := hx
      exact absurd he (habs x hx)
    · intro _ _; rfl
    · intro _; rfl
  | node qd qh ql qr =>
    obtain ⟨hmem, heq⟩ := search_node_sound cond k t.root qd qh ql qr hs
    obtain ⟨res, hres, hdata⟩ := get_closest_right_found cond hst t hord k qd qh ql qr hs
    refine ⟨res, hres, ?_, ?_, ?_⟩
    · intro p hp _ hgt hleast
      cases hl : (recordsAbove cond k (toList t.root)).head? with
      | none =>
        rw [List.head?_eq_none_iff] at hl
        have : p ∈ recordsAbove cond k (toList t.root) := by
          simp only [recordsAbove, List.mem_filter, decide_eq_true_eq]
          exact ⟨hp, hgt⟩
        rw [hl] at this
        simp at this
      | some p2 =>
        have hp2 := List.mem_of_mem_head? hl
        simp only [recordsAbove, List.mem_filter, decide_eq_true_eq] at hp2
        have h1 := recordsAbove_head?_least cond k _ hord p2 hl p hp hgt
        have h2 := hleast p2 hp2.1 hp2.2
        have hpp : p2 = p := by
          rcases h1 with h1 | h1
          · exact h1.symm
          · rcases h2 with h2 | h2
            · exact h2
            · rw [hst.gt_of_lt h1] at h2
              exact Comparison.noConfusion h2
        subst hpp
        rw [hl] at hdata
        exact data?_eq_some res p2 hdata
    · intro _ hmax
      rw [recordsAbove_eq_nil cond k _ hmax] at hdata
      exact data?_eq_none res hdata
    · intro habs
      exact absurd heq (habs qd hmem)

/-- Instance of C11: in the tree built from 1, 3, 5, 7, 9 the successor of 5 is 7 and the
successor of 9 is absent. -/
theorem get_closest_right_correct_witness :
    insertAll natCond [1, 3, 5, 7, 9] AVLTree.empty = some sampleFive ∧
    StrictlyIncreasing natCond (snapshot sampleFive) ∧
    (∃ res, (∀ fuel, size sampleFive.root < fuel →
        get_closest_right natCond fuel sampleFive 5 = some res) ∧
      (∀ p ∈ snapshot sampleFive, (∃ x ∈ snapshot sampleFive, natCond 5 x = EQUAL) →
        natCond p 5 = GREATER_THAN →
        (∀ y ∈ snapshot sampleFive, natCond y 5 = GREATER_THAN →
          y = p ∨ natCond p y = LESS_THAN) →
        ∃ h l r, res = node p h l r) ∧
      ((∃ x ∈ snapshot sampleFive, natCond 5 x = EQUAL) →
        (∀ y ∈ snapshot sampleFive, natCond y 5 ≠ GREATER_THAN) → res = nil) ∧
      ((∀ x ∈ snapshot sampleFive, natCond 5 x ≠ EQUAL) → res = nil)) ∧
    (get_closest_right natCond 6 sampleFive 5).map data? = some (some 7) ∧
    get_closest_right natCond 6 sampleFive 9 = some nil :=
  ⟨by decide, by decide,
    get_closest_right_correct natCond natCond_strictTotal sampleFive (by decide) 5,
    by decide, by decide⟩

/-- C22 as stated fails: on the well-formed tree holding 1 and 3 (root 3 with cached
height 1, left child 1), `erase_data` leaves the root with cached height 0 although its
left child has height 0, so the root's height is not `1 + max(0, -1)`. -/
theorem erase_data_counterexample :
    WellFormed natCond sampleSmall.root ∧
    erase_data sampleSmall = (⟨node 3 0 (node 1 0 nil nil) nil, 2⟩, [1, 3]) ∧
    ¬ HeightsOk (erase_data sampleSmall).1.root := by
  refine ⟨by decide, by decide, by decide⟩

/-- C22, amended: after `erase_data` completes every node has cached height 0 (the source
assigns `r->height = 0` at every node); `erase_data` destroys every stored record exactly
once (in post-order) but removes no node and leaves the tree's shape, the record pointer
at every node, the in-order sequence and the node count unchanged. Hence the cached-height
invariant `height == 1 + max(height(left), height(right))` holds afterwards exactly when
the tree has at most one node. -/
theorem erase_data_effect (t : AVLTree α) :
    (erase_data t).1.root = zeroHeights t.root ∧
    (erase_data t).1.num_of_nodes = t.num_of_nodes ∧
    size (erase_data t).1.root = size t.root ∧
    toList (erase_data t).1.root = toList t.root ∧
    (erase_data t).2 = postorder t.root ∧
    List.Perm (erase_data t).2 (toList t.root) ∧
    (HeightsOk (erase_data t).1.root ↔ size t.root ≤ 1) := by
  have he : erase_data t = (⟨zeroHeights t.root, t.num_of_nodes⟩, postorder t.root) := by
    simp [erase_data, erase_data_in_node_eq]
  rw [he]
  exact ⟨rfl, rfl, size_zeroHeights _, toList_zeroHeights _, rfl, postorder_perm _,
    heightsOk_zeroHeights_iff _⟩

/-- Instance of the amended C22: `erase_data` on an eight-node tree. -/
theorem erase_data_effect_witness :
    (erase_data sampleEight).1.root = zeroHeights sampleEight.root ∧
    (erase_data sampleEight).1.num_of_nodes = sampleEight.num_of_nodes ∧
    size (erase_data sampleEight).1.root = size sampleEight.root ∧
    toList (erase_data sampleEight).1.root = toList sampleEight.root ∧
    (erase_data sampleEight).2 = postorder sampleEight.root ∧
    List.Perm (erase_data sampleEight).2 (toList sampleEight.root) ∧
    (HeightsOk (erase_data sampleEight).1.root ↔ size sampleEight.root ≤ 1) :=
  erase_data_effect sampleEight

/-- C21: balance factors stay within `{-2,-1,0,1,2}` during fixup. For every tree whose
cached heights are correct and whose balance factors are all in `{-1,0,1}` (in particular
every well-formed tree) and every `insert`, `remove` or `remove_and_erase` call on it, at
every ancestor where the fixup runs the balance factor read by `balance_tree` after
`update_height` is defined and lies in `{-2,-1,0,1,2}`; the recursive call on such a
subtree returns and changes its height by at most one level (insert: unchanged or `+1`;
remove: unchanged or `-1`). -/
theorem fixup_balance_factors (cond : α → α → Comparison) (t : AVLTree α)
    (hh : HeightsOk t.root) (hb : Balanced t.root) :
    (∀ x, ∀ e ∈ insert_fixup_bfs cond t.root x nil t.num_of_nodes,
      ∃ bf, e = some bf ∧ -2 ≤ bf ∧ bf ≤ 2) ∧
    (∀ k erase, ∀ e ∈ remove_fixup_bfs cond t.root k false erase [],
      ∃ bf, e = some bf ∧ -2 ≤ bf ∧ bf ≤ 2) ∧
    (∀ (s : AVLNode α), HeightsOk s → Balanced s → ∀ x j n,
      ∃ s1 j1 n1, insert_node cond s x j n = some (s1, j1, n1) ∧
        (height s1 = height s ∨ height s1 = height s + 1)) ∧
    (∀ (s : AVLNode α), HeightsOk s → Balanced s → ∀ k res erase des,
      ∃ s1 res1 des1, remove_node cond s k res erase des = some (s1, res1, des1) ∧
        (height s1 = height s ∨ height s1 = height s - 1)) := by
  refine ⟨?_, ?_, ?_, ?_⟩
  · intro x e he
    exact insert_fixup_bfs_bound cond x t.root nil t.num_of_nodes hh hb e he
  · intro k erase e he
    exact remove_fixup_bfs_bound cond t.root k false erase [] hh hb e he
  · intro s hs bs x j n
    obtain ⟨s1, j1, n1, hi, _, _, hh1, _⟩ := insert_node_spec cond x s j n hs bs
    exact ⟨s1, j1, n1, hi, hh1⟩
  · intro s hs bs k res erase des
    obtain ⟨s1, res1, des1, hi, _, _, hh1, _⟩ := remove_node_spec cond s k res erase des hs bs
    exact ⟨s1, res1, des1, hi, hh1⟩

/-- Instance of C21: inserting 2 into the tree holding 1 and 3 reads the balance factors
-1 (at the node 1) and 2 (at the root 3); removing 1 from the tree built from 1, 3, 5, 7,
9 reads -2 at the root. -/
theorem fixup_balance_factors_witness :
    HeightsOk sampleSmall.root ∧ Balanced sampleSmall.root ∧
    (∀ e ∈ insert_fixup_bfs natCond sampleSmall.root 2 nil sampleSmall.num_of_nodes,
      ∃ bf, e = some bf ∧ -2 ≤ bf ∧ bf ≤ 2) ∧
    insert_fixup_bfs natCond sampleSmall.root 2 nil sampleSmall.num_of_nodes =
      [some (-1), some 2] ∧
    remove_fixup_bfs natCond sampleFive.root 1 false false [] = [some (-2)] :=
  ⟨by decide, by decide,
    (fixup_balance_factors natCond sampleSmall (by decide) (by decide)).1 2,
    by decide, by decide⟩

end Claims

end AVL
